import Mathlib

/-!
Verification of the n2 build-graph loader core (src/load.rs, src/graph.rs,
src/parse.rs) against its natural-language specification.

The Rust code is shallowly embedded: pure functions become Lean functions,
the concurrent file registry becomes explicit state passing, machine
integers become `Nat` (all the loader's counters are small indices with no
overflowing arithmetic), fallible code returns `Except`, and a Rust panic
is modelled as a distinguished result constructor where a claim is about
panics.
-/

namespace N2

/-- A scope position, `ScopePosition(pub usize)` in src/load.rs. -/
abbrev ScopePosition := Nat

/-- One part of an `EvalString`.  src/load.rs imports
`eval::{EvalPart, EvalString}`; the `eval` module itself is not under src/,
so the shape is taken from the spec ("EvalString. An ordered list of parts:
literal fragments and variable references"). -/
inductive EvalPart where
  | literal (s : String)
  | varRef (v : String)
deriving Repr, DecidableEq

/-- `EvalString`: an ordered list of parts (spec, section 3). -/
abbrev EvalString := List EvalPart

/-- `parse::VariableAssignment` as stored by src/load.rs in
`Scope.variables`: the variable name, the unevaluated right-hand side, and
the ordinal scope position assigned at dequeue. -/
structure VariableAssignment where
  name : String
  value : EvalString
  scopePosition : ScopePosition
deriving Repr, DecidableEq

/-- `parse::Rule` as stored by src/load.rs in `Scope.rules`: name, the
rule's variable block, and its ordinal scope position. -/
structure Rule where
  name : String
  vars : List (String × EvalString)
  scopePosition : ScopePosition
deriving Repr, DecidableEq

/-- `Scope` from src/load.rs.  `parent` is the
`Option<ParentScopeReference>` (parent scope and the position at which this
scope was mounted in it); `rules` and `variables` embed the hash maps as
association lists (keys are unique: insertion checks occupancy).
`next_free_position` is dropped: it matters only while parsing mutates the
scope, and no claim mentions it. -/
inductive Scope where
  | mk (parent : Option (Scope × ScopePosition))
       (rules : List (String × Rule))
       (vars : List (String × List VariableAssignment))
deriving Repr

/-- The `parent` field of a `Scope`. -/
def Scope.parent : Scope → Option (Scope × ScopePosition)
  | .mk p _ _ => p

/-- The `rules` field of a `Scope`. -/
def Scope.rules : Scope → List (String × Rule)
  | .mk _ r _ => r

/-- The `variables` field of a `Scope` (renamed: `variables` is reserved in
Lean). -/
def Scope.varLists : Scope → List (String × List VariableAssignment)
  | .mk _ _ v => v

/-- `Scope::get_rule` from src/load.rs (lines 79-88): the scope's own rule
is returned when its recorded position is strictly below `position`;
otherwise (rule present but not strictly earlier, or rule absent) the
parent is consulted at the mount position, and the result is `none` at the
root.  The source's two nested matches (rule lookup, then
`self.parent.as_ref().map(..).flatten()`) are flattened into one match
over both scrutinees. -/
def Scope.get_rule : Scope → String → ScopePosition → Option Rule
  | .mk parent rules _, name, position =>
    match rules.lookup name, parent with
    | some rule, some (p, mount) =>
      if rule.scopePosition < position then some rule else p.get_rule name mount
    | some rule, none =>
      if rule.scopePosition < position then some rule else none
    | none, some (p, mount) => p.get_rule name mount
    | none, none => none

/-- The index returned (inside `Err`) by
`variables.binary_search_by(|x| if x.scope_position < position \x7b Less \x7d
else \x7b Greater \x7d)` in `Scope::evaluate`: for a list sorted by scope
position (scopes append assignments with strictly increasing positions)
Rust's `binary_search_by` returns the partition point, the number of
elements on which the comparator answers `Less`. -/
def binarySearchInsertion (vs : List VariableAssignment) (position : ScopePosition) : Nat :=
  (vs.filter (fun x => x.scopePosition < position)).length

mutual

/-- `Scope::evaluate` from src/load.rs (lines 90-117), returning the string
the Rust code appends to `result`.  The index probed is
`min(insertion_point, len - 1)`; when the probed assignment's position is
strictly below `position` its right-hand side is evaluated in this same
scope at that assignment's own position, otherwise the parent (if any) is
consulted -- the source passes `position` itself to the parent, not the
mount position.  An empty assignment list cannot be built by the loader
(entries are created nonempty and only pushed to); there the embedding
falls through to the parent like the `None` case. -/
def Scope.evaluate : Scope → String → ScopePosition → String
  | .mk parent rules varls, varname, position =>
    match varls.lookup varname with
    | some vs =>
      let i := binarySearchInsertion vs position
      let i := min i (vs.length - 1)
      match vs[i]? with
      | some a =>
        if _h : a.scopePosition < position then
          VariableAssignment.evalValue a.value (.mk parent rules varls) a.scopePosition
        else
          match parent with
          | some (p, _mount) => p.evaluate varname position
          | none => ""
      | none =>
        match parent with
        | some (p, _mount) => p.evaluate varname position
        | none => ""
    | none =>
      match parent with
      | some (p, _mount) => p.evaluate varname position
      | none => ""
termination_by s _ p => (sizeOf s, p, 0)

/-- Modelled from the spec: `VariableAssignment::evaluate(result, scope)`
is not under src/ (only its caller in `Scope::evaluate` is).  Per the spec,
"recursively evaluate that assignment's right-hand `EvalString` within the
current scope, using that assignment's own position"; literal parts are
appended verbatim and variable references are resolved by
`scope.evaluate`. -/
def VariableAssignment.evalValue : EvalString → Scope → ScopePosition → String
  | [], _, _ => ""
  | .literal s :: rest, scope, position =>
    s ++ VariableAssignment.evalValue rest scope position
  | .varRef v :: rest, scope, position =>
    scope.evaluate v position ++ VariableAssignment.evalValue rest scope position
termination_by es s p => (sizeOf s, p, sizeOf es + 1)

end

/-- The output channel of a diagnostic message.  Rust's `println!` writes
to standard output, `eprintln!` to standard error. -/
inductive Chan where
  | stdout
  | stderr
deriving Repr, DecidableEq

/-- One diagnostic line together with the channel it is printed on. -/
structure Warning where
  chan : Chan
  msg : String
deriving Repr, DecidableEq

/-- `RspFile` from src/graph.rs. -/
structure RspFile where
  path : String
  content : String
deriving Repr, DecidableEq

/-- `BuildIns` from src/graph.rs: explicit/implicit/order-only inputs in a
single vector, partitioned by counts.  Interned file references
(`Arc<File>` in graph.rs, `FileId` in load.rs) are represented by natural
number identities: two references are equal exactly when they denote the
same interned file record, matching `std::ptr::eq` on interned `Arc`s. -/
structure BuildIns where
  ids : List Nat
  explicit : Nat
  implicit : Nat
  orderOnly : Nat
deriving Repr, DecidableEq

/-- `BuildOuts` from src/graph.rs. -/
structure BuildOuts where
  ids : List Nat
  explicit : Nat
deriving Repr, DecidableEq

/-- The loop of `BuildOuts::remove_duplicates` (src/graph.rs lines
112-128).  `orig` is the untouched `self.ids` vector the duplicate test
reads (`self.ids[0..i]`), `i` the loop index, the third argument the not
yet visited tail, and `expl` the current (already partially decremented)
`self.explicit`.  Returns the rebuilt `ids` vector and the final
`explicit`. -/
def removeDuplicatesGo (orig : List Nat) : Nat → List Nat → Nat → List Nat × Nat
  | _, [], expl => ([], expl)
  | i, id :: rest, expl =>
    if (orig.take i).any (fun prev => prev == id) then
      -- Skip over duplicate; the bound check reads the mutated `explicit`.
      removeDuplicatesGo orig (i + 1) rest (if i < expl then expl - 1 else expl)
    else
      let r := removeDuplicatesGo orig (i + 1) rest expl
      (id :: r.1, r.2)

/-- `BuildOuts::remove_duplicates` from src/graph.rs. -/
def BuildOuts.remove_duplicates (outs : BuildOuts) : BuildOuts :=
  let r := removeDuplicatesGo outs.ids 0 outs.ids outs.explicit
  { ids := r.1, explicit := r.2 }

/-- `FileLoc` from src/graph.rs. -/
structure FileLoc where
  filename : String
  line : Nat
deriving Repr, DecidableEq

/-- The render of a `FileLoc` by its `Display` impl. -/
def FileLoc.render (l : FileLoc) : String :=
  l.filename ++ ":" ++ toString l.line

/-- `Build` from src/graph.rs (the `discovered_ins` list is empty at
load). -/
structure Build where
  id : Nat
  location : FileLoc
  desc : Option String
  cmdline : Option String
  depfile : Option String
  parseShowincludes : Bool
  rspfile : Option RspFile
  pool : Option String
  ins : BuildIns
  discoveredIns : List Nat
  outs : BuildOuts
deriving Repr, DecidableEq

/-- `Build::new` from src/graph.rs. -/
def Build.new (id : Nat) (loc : FileLoc) (ins : BuildIns) (outs : BuildOuts) : Build :=
  { id := id, location := loc, desc := none, cmdline := none, depfile := none,
    parseShowincludes := false, rspfile := none, pool := none,
    ins := ins, discoveredIns := [], outs := outs }

/-- `Build::explicit_ins`: `&self.ins.ids[0..self.ins.explicit]`.  The Rust
slice panics when the count exceeds the vector length; `List.take`
truncates instead, and the claims about these accessors carry the
well-formedness bound under which both agree. -/
def Build.explicit_ins (b : Build) : List Nat :=
  b.ins.ids.take b.ins.explicit

/-- `Build::dirtying_ins`: `[0 .. explicit + implicit)`. -/
def Build.dirtying_ins (b : Build) : List Nat :=
  b.ins.ids.take (b.ins.explicit + b.ins.implicit)

/-- `Build::ordering_ins`: `[0 .. order_only + explicit + implicit)`. -/
def Build.ordering_ins (b : Build) : List Nat :=
  b.ins.ids.take (b.ins.orderOnly + b.ins.explicit + b.ins.implicit)

/-- `Build::validation_ins`: `[order_only + explicit + implicit ..]`. -/
def Build.validation_ins (b : Build) : List Nat :=
  b.ins.ids.drop (b.ins.orderOnly + b.ins.explicit + b.ins.implicit)

/-- `File` from src/graph.rs: canonical path, the guarded producer slot
(`input: Mutex<Option<BuildId>>`), and the lock-free dependents list
(prepend-only, so a Lean list with cons). -/
structure NFile where
  name : String
  input : Option Nat
  dependents : List Nat
deriving Repr, DecidableEq

instance : Inhabited NFile := ⟨⟨"", none, []⟩⟩

/-- The `by_id` map of `Files` (src/load.rs): `FileId -> File`, embedded as
an association list with unique keys. -/
abbrev FileStore := List (Nat × NFile)

/-- Map lookup on the file store. -/
def lookupFile (store : FileStore) (fid : Nat) : Option NFile :=
  (store.find? (fun p => p.1 == fid)).map (fun p => p.2)

/-- In-place mutation of one record of the file store. -/
def updateFile (store : FileStore) (fid : Nat) (f : NFile → NFile) : FileStore :=
  store.map (fun p => if p.1 == fid then (p.1, f p.2) else p)

/-- The loop of `Graph::initialize_build` (src/graph.rs lines 315-345) over
the build's output files, adapted to the store-of-records embedding of the
shared `File` objects: for each output, lock its `input` slot; an empty
slot is set to this build's id; a slot already holding this same id marks
`fixup_dups` and prints a warning (via `println!`, hence standard output);
a slot holding a different id aborts with the "already an output"
error. -/
def installOuts : FileStore → Nat → FileLoc → List Nat → Bool → List Warning →
    Except String (FileStore × Bool × List Warning)
  | store, _, _, [], fixupDups, warns => .ok (store, fixupDups, warns)
  | store, newId, loc, fid :: rest, fixupDups, warns =>
    let f := (lookupFile store fid).getD default
    match f.input with
    | some prev =>
      if prev == newId then
        installOuts store newId loc rest true
          (warns ++ [⟨.stdout, "n2: warn: " ++ loc.render ++ ": " ++ f.name ++ " is repeated in output list"⟩])
      else
        .error (loc.render ++ ": " ++ f.name ++ " is already an output at ")
    | none =>
      installOuts (updateFile store fid (fun g => { g with input := some newId }))
        newId loc rest fixupDups warns

/-- `Graph::initialize_build` from src/graph.rs: walk the outputs, then on
success run `remove_duplicates` when `fixup_dups` was set. -/
def Graph.initialize_build (store : FileStore) (build : Build) :
    Except String (FileStore × Build × List Warning) :=
  match installOuts store build.id build.location build.outs.ids false [] with
  | .error e => .error e
  | .ok (store2, fixupDups, warns) =>
    let build2 :=
      if fixupDups then { build with outs := build.outs.remove_duplicates } else build
    .ok (store2, build2, warns)

/-- `Files` from src/load.rs: the concurrent interning registry, embedded
as sequentially threaded state (name map, record map, and the two atomic
counters). -/
structure Files where
  byName : List (String × Nat)
  byId : FileStore
  nextId : Nat
  nextBuildId : Nat
deriving Repr, DecidableEq

/-- `Files::id_from_canonical` (src/load.rs lines 239-254): return the
existing id, or insert a fresh record (empty producer, empty dependents)
under the next id. -/
def Files.id_from_canonical (files : Files) (file : String) : Nat × Files :=
  match files.byName.lookup file with
  | some id => (id, files)
  | none =>
    let id := files.nextId
    (id, { files with
           byName := (file, id) :: files.byName,
           byId := (id, { name := file, input := none, dependents := [] }) :: files.byId,
           nextId := files.nextId + 1 })

/-- `Files::id_from_canonical_and_add_dependant` (src/load.rs lines
256-276): like `id_from_canonical`, and additionally prepend `build` to
the file's dependents list. -/
def Files.id_from_canonical_and_add_dependant (files : Files) (file : String) (build : Nat) :
    Nat × Files :=
  match files.byName.lookup file with
  | some id =>
    (id, { files with
           byId := updateFile files.byId id
             (fun g => { g with dependents := build :: g.dependents }) })
  | none =>
    let id := files.nextId
    (id, { files with
           byName := (file, id) :: files.byName,
           byId := (id, { name := file, input := none, dependents := [build] }) :: files.byId,
           nextId := files.nextId + 1 })

/-- `Files::create_build_id` (src/load.rs lines 287-292): `fetch_add` on
the build-id counter. -/
def Files.create_build_id (files : Files) : Nat × Files :=
  (files.nextBuildId, { files with nextBuildId := files.nextBuildId + 1 })

/-- The dependents list recorded for file id `fid` in a file store. -/
def storeDeps (store : FileStore) (fid : Nat) : List Nat :=
  ((lookupFile store fid).getD default).dependents

/-- The dependents list recorded for file id `fid`. -/
def Files.dependentsOf (files : Files) (fid : Nat) : List Nat :=
  storeDeps files.byId fid

/-- A variable lookup environment passed to `EvalString::evaluate`:
either a plain name-to-EvalString map (a build's or rule's variable
block), or `BuildImplicitVars` from src/load.rs (lines 28-45). -/
inductive Env where
  | varMap (entries : List (String × EvalString))
  | buildImplicitVars (explicit_ins : List String) (explicit_outs : List String)
deriving Repr

/-- `Env::get_var`.  The `buildImplicitVars` arm is
`BuildImplicitVars::get_var` from src/load.rs (lines 33-45): the four
magic names answer with a single-literal `EvalString` built by joining the
explicit inputs/outputs, every other name answers `None`. -/
def Env.get_var : Env → String → Option EvalString
  | .varMap entries, v => entries.lookup v
  | .buildImplicitVars ins outs, v =>
    match v with
    | "in" => some [.literal (String.intercalate " " ins)]
    | "in_newline" => some [.literal (String.intercalate "\n" ins)]
    | "out" => some [.literal (String.intercalate " " outs)]
    | "out_newline" => some [.literal (String.intercalate "\n" outs)]
    | _ => none

/-- Modelled from the spec: `EvalString::evaluate(&[envs], scope,
position)` lives in the absent eval module.  Per spec section 4.2, literal
parts concatenate; a variable reference tries the intermediate
environments left to right and on a total miss delegates to
`scope.evaluate(varname, position)`; a hit yields an `EvalString` (for the
implicit environment always a literal) which is evaluated against the
environments after the hit.  Structured as recursion on the environment
list, with each level concatenating its parts. -/
def evalUnderEnvs : List Env → Scope → ScopePosition → EvalString → String
  | [], scope, position, es =>
    String.join (es.map (fun part =>
      match part with
      | .literal s => s
      | .varRef v => scope.evaluate v position))
  | e :: rest, scope, position, es =>
    String.join (es.map (fun part =>
      match part with
      | .literal s => s
      | .varRef v =>
        match e.get_var v with
        | some es2 => evalUnderEnvs rest scope position es2
        | none => evalUnderEnvs rest scope position [.varRef v]))

/-- `EvalString::evaluate(&[envs], scope, position)` (see
`evalUnderEnvs`). -/
def EvalString.evaluate (es : EvalString) (envs : List Env) (scope : Scope)
    (position : ScopePosition) : String :=
  evalUnderEnvs envs scope position es

/-- `parse::Build` as consumed by `add_build` in src/load.rs: the parse
module under src/ predates the parallel loader, so the fields are the ones
load.rs reads (spec section 4.1, `Build` statement). -/
structure PBuild where
  rule : String
  outs : List EvalString
  explicit_outs : Nat
  ins : List EvalString
  explicit_ins : Nat
  implicit_ins : Nat
  order_only_ins : Nat
  vars : List (String × EvalString)
  line : Nat
  scopePosition : ScopePosition
deriving Repr

/-- The `deps` attribute check in `add_build` (src/load.rs lines 160-165):
absent and `"gcc"` leave `parse_showincludes` false, `"msvc"` sets it,
anything else is the "invalid deps attribute" error. -/
def depsShowincludes : Option String → Except String Bool
  | none => .ok false
  | some "gcc" => .ok false
  | some "msvc" => .ok true
  | some other => .error ("invalid deps attribute " ++ other)

/-- The `rspfile`/`rspfile_content` pairing check in `add_build`
(src/load.rs lines 170-177). -/
def rspOf : Option String → Option String → Except String (Option RspFile)
  | none, none => .ok none
  | some path, some content => .ok (some ⟨path, content⟩)
  | _, _ => .error "rspfile and rspfile_content need to be both specified"

/-- The `lookup` closure in `add_build` (src/load.rs lines 149-155): a key
defined by the rule evaluates its rule-level `EvalString` under the
implicit environment and the build's variable block; otherwise a key
defined by the build evaluates with no intermediate environments; else
absent. -/
def lookupBuildVar (rule : Rule) (b : PBuild) (implicitVars : Env) (scope : Scope)
    (key : String) : Option String :=
  match rule.vars.lookup key with
  | some val => some (EvalString.evaluate val [implicitVars, .varMap b.vars] scope b.scopePosition)
  | none =>
    (b.vars.lookup key).map (fun v => EvalString.evaluate v [] scope b.scopePosition)

/-- The input-interning fold of `add_build`: each evaluated, canonicalised
input path is interned with `id_from_canonical_and_add_dependant`
(src/load.rs lines 181-190). -/
def internIns : Files → List String → Nat → List Nat × Files
  | files, [], _ => ([], files)
  | files, s :: rest, bid =>
    let r1 := files.id_from_canonical_and_add_dependant s bid
    let r2 := internIns r1.2 rest bid
    (r1.1 :: r2.1, r2.2)

/-- The output-interning fold of `add_build`: outputs are interned with the
plain `id_from_canonical` (src/load.rs lines 191-197). -/
def internOuts : Files → List String → List Nat × Files
  | files, [] => ([], files)
  | files, s :: rest =>
    let r1 := files.id_from_canonical s
    let r2 := internOuts r1.2 rest
    (r1.1 :: r2.1, r2.2)

/-- `add_build` from src/load.rs (lines 120-221).  `canon` is the pure
canonicalisation collaborator (`canon_path`, out of scope for the spec).
Evaluate and canonicalise the inputs and outputs, look up the rule (unknown
rule is an error), resolve the fixed attribute set against the implicit
environment, validate `deps` and the rspfile pair, allocate the next
`BuildId`, intern inputs with the dependent-adding interning and outputs
with the plain interning, and finalise via `Graph::initialize_build`. -/
def add_build (canon : String → String) (files : Files) (filename : String)
    (scope : Scope) (b : PBuild) : Except String (Files × Build × List Warning) :=
  let ins := b.ins.map (fun x => canon (EvalString.evaluate x [.varMap b.vars] scope b.scopePosition))
  let outs := b.outs.map (fun x => canon (EvalString.evaluate x [.varMap b.vars] scope b.scopePosition))
  match scope.get_rule b.rule b.scopePosition with
  | none => .error ("unknown rule " ++ b.rule)
  | some rule =>
    let implicitVars := Env.buildImplicitVars (ins.take b.explicit_ins) (outs.take b.explicit_outs)
    let cmdline := lookupBuildVar rule b implicitVars scope "command"
    let desc := lookupBuildVar rule b implicitVars scope "description"
    let depfile := lookupBuildVar rule b implicitVars scope "depfile"
    match depsShowincludes (lookupBuildVar rule b implicitVars scope "deps") with
    | .error e => .error e
    | .ok parseShowincludes =>
      let pool := lookupBuildVar rule b implicitVars scope "pool"
      match rspOf (lookupBuildVar rule b implicitVars scope "rspfile")
          (lookupBuildVar rule b implicitVars scope "rspfile_content") with
      | .error e => .error e
      | .ok rspfile =>
        let r0 := files.create_build_id
        let build_id := r0.1
        let r1 := internIns r0.2 ins build_id
        let r2 := internOuts r1.2 outs
        let bins : BuildIns :=
          { ids := r1.1, explicit := b.explicit_ins, implicit := b.implicit_ins,
            orderOnly := b.order_only_ins }
        let bouts : BuildOuts := { ids := r2.1, explicit := b.explicit_outs }
        let build :=
          { Build.new build_id ⟨filename, b.line⟩ bins bouts with
            cmdline := cmdline, desc := desc, depfile := depfile,
            parseShowincludes := parseShowincludes, rspfile := rspfile, pool := pool }
        match Graph.initialize_build r2.2.byId build with
        | .error e => .error e
        | .ok (store, build2, warns) => .ok ({ r2.2 with byId := store }, build2, warns)

/-- The content of one finalised build by which two runs of the loader are
compared: its input and output paths, in order. -/
structure BuildSummary where
  ins : List String
  outs : List String
deriving Repr, DecidableEq

instance : Inhabited BuildSummary := ⟨⟨[], []⟩⟩

/-- The id-assignment race of the loader, embedded with an explicit
schedule.  `builds` are the buffered build statements in manifest order
(parsing drains chunks in chunk order, so this list is deterministic); the
loader spawns one `add_build` task per entry, and each task draws its
`BuildId` from the shared `fetch_add` counter (`Files::create_build_id`),
so the task that reaches the counter `j`-th receives id `j`.  `sched j`
names which buffered build that was; after `read` sorts the collected
builds by ascending id (src/load.rs line 575), position `j` of the result
holds build `sched j` with id `j`. -/
def loadWithSchedule (builds : List BuildSummary) (sched : List Nat) :
    List (Nat × BuildSummary) :=
  (List.range sched.length).map (fun j => (j, builds.getD (sched.getD j 0) default))

/-- Well-formedness of the interning state, maintained by every registry
operation: allocated ids are below the id counter, and every id the name
map hands out has a record. -/
def Files.wf (files : Files) : Prop :=
  (∀ p ∈ files.byId, p.1 < files.nextId) ∧
  (∀ p ∈ files.byName, p.2 < files.nextId) ∧
  (∀ p ∈ files.byName, ∃ f, lookupFile files.byId p.2 = some f)

/-- Spec-side description for the duplicate-output claim: the output list
with exactly the first occurrence of every interned reference kept, in
order ("drop any output whose interned file reference has already appeared
earlier"). -/
def firstOccur (ids : List Nat) : List Nat :=
  ids.foldl (fun acc x => if acc.contains x then acc else acc ++ [x]) []

/-- Spec-side description: the indices of the outputs that
`remove_duplicates` drops (those whose reference already appeared at an
earlier index). -/
def dupIndices (ids : List Nat) : List Nat :=
  (List.range ids.length).filter (fun i => (ids.take i).any (fun prev => prev == ids.getD i 0))

/-- The scope of the `Scope::evaluate` divergence: `x` is assigned at
positions 0 (value `A`) and 2 (value `B`), as produced by the manifest
`x = A` / `build ...` (position 1) / `x = B`. -/
def c1Scope : Scope :=
  .mk none [] [("x", [⟨"x", [.literal "A"], 0⟩, ⟨"x", [.literal "B"], 2⟩])]

/-- A parent scope defining `y = P` at position 3. -/
def c1Parent : Scope := .mk none [] [("y", [⟨"y", [.literal "P"], 3⟩])]

/-- A child scope mounted in `c1Parent` at position 5, with no bindings of
its own. -/
def c1Child : Scope := .mk (some (c1Parent, 5)) [] []

/-- Store for the duplicate-output warning run: two files, no producers. -/
def c2Store : FileStore :=
  [(0, ⟨"x", none, []⟩), (1, ⟨"y", none, []⟩)]

/-- A build (id 7) listing file 0 twice among its outputs
(`build x x y: ...`). -/
def c2Build : Build :=
  Build.new 7 ⟨"build.ninja", 3⟩ ⟨[], 0, 0, 0⟩ ⟨[0, 0, 1], 2⟩

/-- Two distinguishable buffered builds for the schedule-dependence run. -/
def c9Builds : List BuildSummary := [⟨["a"], ["x"]⟩, ⟨["b"], ["y"]⟩]

namespace Parse

/-!
Embedding of src/parse.rs (the tokeniser present under src/).  The byte
slice is a `List Char` of its bytes; a Rust panic (out-of-bounds index in
`Scanner::peek`, the guards in `next`/`back`) is the `panicked` outcome,
a `ParseError` is `perr`, and the loops recurse on an explicit fuel whose
exhaustion is the separate `fuelOut` outcome (never confused with
termination of the Rust code).
-/

/-- Result of running an embedded src/parse.rs function. -/
inductive PRes (α : Type) where
  | ok (a : α)
  | perr (msg : String) (ofs : Nat)
  | panicked (msg : String)
  | fuelOut
deriving Repr, DecidableEq

instance : Monad PRes where
  pure := .ok
  bind m f :=
    match m with
    | .ok a => f a
    | .perr msg o => .perr msg o
    | .panicked msg => .panicked msg
    | .fuelOut => .fuelOut

/-- The NUL byte the parser stops at. -/
def nul : Char := Char.ofNat 0

/-- Opening brace (written by code point to keep it out of the text). -/
def lbrace : Char := Char.ofNat 123

/-- Closing brace. -/
def rbrace : Char := Char.ofNat 125

/-- `Scanner` from src/parse.rs: the borrowed buffer and the cursor. -/
structure Scanner where
  buf : List Char
  ofs : Nat
deriving Repr, DecidableEq

/-- `Scanner::slice(start, end)`: `get_unchecked` on an in-bounds range. -/
def Scanner.slice (s : Scanner) (start stop : Nat) : String :=
  (((s.buf.drop start).take (stop - start)).map id).asString

/-- `Scanner::peek`: `self.buf.as_bytes()[self.ofs]`.  Indexing past the
end of the buffer is a Rust panic, not an EOF result. -/
def Scanner.peek (s : Scanner) : PRes Char :=
  match s.buf[s.ofs]? with
  | some c => .ok c
  | none => .panicked "index out of bounds"

/-- `Scanner::next`: panics when the cursor already sits at the buffer
length, otherwise advances it. -/
def Scanner.next (s : Scanner) : PRes Scanner :=
  if s.ofs == s.buf.length then .panicked "scanned past end"
  else .ok { s with ofs := s.ofs + 1 }

/-- `Scanner::back`: panics at offset zero, otherwise retreats. -/
def Scanner.back (s : Scanner) : PRes Scanner :=
  if s.ofs == 0 then .panicked "back at start"
  else .ok { s with ofs := s.ofs - 1 }

/-- `Scanner::read`: peek then advance. -/
def Scanner.read (s : Scanner) : PRes (Char × Scanner) := do
  let c ← s.peek
  let s2 ← s.next
  pure (c, s2)

/-- `EvalString` of src/parse.rs (literal / variable-reference parts over
the borrowed text). -/
inductive PEvalPart where
  | literal (s : String)
  | varRef (v : String)
deriving Repr, DecidableEq

abbrev PEvalString := List PEvalPart

/-- `EvalString::evaluate` from src/parse.rs: literals append; a variable
reference appends the first environment hit (environments are the resolved
maps), and nothing on a total miss. -/
def PEvalString.evaluate (es : PEvalString) (envs : List (List (String × String))) : String :=
  es.foldl
    (fun acc part =>
      match part with
      | .literal s => acc ++ s
      | .varRef v =>
        match envs.findSome? (fun env => env.lookup v) with
        | some val => acc ++ val
        | none => acc)
    ""

/-- Insert-or-replace into an association list (`HashMap::insert`). -/
def assocInsert (m : List (String × String)) (k : String) (v : String) :
    List (String × String) :=
  if m.any (fun p => p.1 == k) then
    m.map (fun p => if p.1 == k then (k, v) else p)
  else
    m ++ [(k, v)]

/-- `Rule` from src/parse.rs. -/
structure PRule where
  name : String
  vars : List (String × PEvalString)
deriving Repr, DecidableEq

/-- `Build` from src/parse.rs. -/
structure PBuildStmt where
  rule : String
  outs : List String
  ins : List String
  vars : List (String × PEvalString)
deriving Repr, DecidableEq

/-- `Statement` from src/parse.rs. -/
inductive Statement where
  | rule (r : PRule)
  | build (b : PBuildStmt)
  | default (target : String)
deriving Repr, DecidableEq

/-- `Parser` from src/parse.rs: the scanner and the resolved top-level
variables. -/
structure Parser where
  scanner : Scanner
  vars : List (String × String)
deriving Repr, DecidableEq

/-- `Parser::skip_spaces`: advance while the peeked character is a
space. -/
def skip_spaces : Nat → Scanner → PRes Scanner
  | 0, _ => .fuelOut
  | fuel + 1, s => do
    let c ← s.peek
    if c == ' ' then do
      let s2 ← s.next
      skip_spaces fuel s2
    else
      pure s

/-- `Parser::skip_comment`: read until a newline (consumed) or a NUL
(pushed back). -/
def skip_comment : Nat → Scanner → PRes Scanner
  | 0, _ => .fuelOut
  | fuel + 1, s => do
    let r ← s.read
    if r.1 == nul then
      r.2.back
    else if r.1 == '\n' then
      pure r.2
    else
      skip_comment fuel r.2

/-- The loop of `Parser::read_ident`: consume `'a'..='z' | '_'`, then step
back over the first other character. -/
def read_ident_go : Nat → Scanner → PRes Scanner
  | 0, _ => .fuelOut
  | fuel + 1, s => do
    let r ← s.read
    if ('a' ≤ r.1 && r.1 ≤ 'z') || r.1 == '_' then
      read_ident_go fuel r.2
    else
      r.2.back

/-- `Parser::read_ident`: scan an identifier; empty is the "failed to scan
ident" error. -/
def read_ident (fuel : Nat) (s : Scanner) : PRes (String × Scanner) := do
  let start := s.ofs
  let s2 ← read_ident_go fuel s
  if s2.ofs == start then
    .perr "failed to scan ident" s2.ofs
  else
    pure (s2.slice start s2.ofs, s2)

/-- `Parser::expect`: read one character; on mismatch step back and
error. -/
def expect (ch : Char) (s : Scanner) : PRes (Unit × Scanner) := do
  let r ← s.read
  if r.1 == ch then
    pure ((), r.2)
  else do
    let s3 ← r.2.back
    .perr ("expected " ++ toString ch) s3.ofs

/-- The brace-delimited loop of `Parser::read_escape`. -/
def read_braced_go : Nat → Scanner → PRes Scanner
  | 0, _ => .fuelOut
  | fuel + 1, s => do
    let r ← s.read
    if r.1 == nul then
      .perr "unexpected EOF" r.2.ofs
    else if r.1 == rbrace then
      pure r.2
    else
      read_braced_go fuel r.2

/-- `Parser::read_escape`: the character after a `$` selects a line
continuation, a braced variable reference, or a bare identifier
reference. -/
def read_escape (fuel : Nat) (s : Scanner) : PRes (PEvalPart × Scanner) := do
  let c ← s.peek
  if c == '\n' then do
    let s2 ← s.next
    let s3 ← skip_spaces fuel s2
    pure (.literal "", s3)
  else if c == lbrace then do
    let s2 ← s.next
    let start := s2.ofs
    let s3 ← read_braced_go fuel s2
    pure (.varRef (s3.slice start (s3.ofs - 1)), s3)
  else do
    let r ← read_ident fuel s
    pure (.varRef r.1, r.2)

/-- The loop of `Parser::read_eval`: collect literal runs and escapes until
an (unescaped) newline; a NUL is the "unexpected EOF" error. -/
def read_eval_go : Nat → Scanner → Nat → PEvalString → PRes (PEvalString × Scanner)
  | 0, _, _, _ => .fuelOut
  | fuel + 1, s, litStart, parts => do
    let r ← s.read
    if r.1 == nul then
      .perr "unexpected EOF" r.2.ofs
    else if r.1 == '\n' then
      let stop := r.2.ofs - 1
      pure (parts ++ (if litStart < stop then [.literal (r.2.slice litStart stop)] else []), r.2)
    else if r.1 == '$' then do
      let stop := r.2.ofs - 1
      let parts2 := parts ++ (if litStart < stop then [.literal (r.2.slice litStart stop)] else [])
      let e ← read_escape fuel r.2
      read_eval_go fuel e.2 e.2.ofs (parts2 ++ [e.1])
    else
      read_eval_go fuel r.2 litStart parts

/-- `Parser::read_eval`. -/
def read_eval (fuel : Nat) (s : Scanner) : PRes (PEvalString × Scanner) :=
  read_eval_go fuel s s.ofs []

/-- `Parser::read_vardef`: skip spaces, expect `=`, skip spaces, read the
value. -/
def read_vardef (fuel : Nat) (s : Scanner) : PRes (PEvalString × Scanner) := do
  let s1 ← skip_spaces fuel s
  let r2 ← expect '=' s1
  let s3 ← skip_spaces fuel r2.2
  read_eval fuel s3

/-- The loop of `Parser::read_scoped_vars`: while the next line starts with
a space, read one indented `name = value` binding. -/
def read_scoped_vars : Nat → Scanner → List (String × PEvalString) →
    PRes (List (String × PEvalString) × Scanner)
  | 0, _, _ => .fuelOut
  | fuel + 1, s, vars => do
    let c ← s.peek
    if c == ' ' then do
      let s1 ← skip_spaces fuel s
      let rn ← read_ident fuel s1
      let s2 ← skip_spaces fuel rn.2
      let rv ← read_vardef fuel s2
      read_scoped_vars fuel rv.2 (vars ++ [(rn.1, rv.1)])
    else
      pure (vars, s)

/-- `Parser::read_rule`. -/
def read_rule (fuel : Nat) (s : Scanner) : PRes (PRule × Scanner) := do
  let rn ← read_ident fuel s
  let re ← expect '\n' rn.2
  let rv ← read_scoped_vars fuel re.2 []
  pure ({ name := rn.1, vars := rv.1 }, rv.2)

/-- The loop of `Parser::read_path`: characters and `$` escapes accumulate
into the path; `:`, `|`, space and newline are pushed back and end it; a
NUL is pushed back and errors. -/
def read_path_go : Nat → List (String × String) → Scanner → String →
    PRes (String × Scanner)
  | 0, _, _, _ => .fuelOut
  | fuel + 1, vars, s, path => do
    let r ← s.read
    if r.1 == nul then do
      let s2 ← r.2.back
      .perr "unexpected EOF" s2.ofs
    else if r.1 == '$' then do
      let e ← read_escape fuel r.2
      match e.1 with
      | .literal l => read_path_go fuel vars e.2 (path ++ l)
      | .varRef v =>
        match vars.lookup v with
        | some val => read_path_go fuel vars e.2 (path ++ val)
        | none => read_path_go fuel vars e.2 path
    else if r.1 == ':' || r.1 == '|' || r.1 == ' ' || r.1 == '\n' then do
      let s2 ← r.2.back
      pure (path, s2)
    else
      read_path_go fuel vars r.2 (path.push r.1)

/-- `Parser::read_path`: an empty accumulated path is `None`. -/
def read_path (fuel : Nat) (vars : List (String × String)) (s : Scanner) :
    PRes (Option String × Scanner) := do
  let r ← read_path_go fuel vars s ""
  if r.1 == "" then
    pure (none, r.2)
  else
    pure (some r.1, r.2)

/-- The outputs loop of `Parser::read_build`. -/
def read_build_outs : Nat → List (String × String) → Scanner → List String →
    PRes (List String × Scanner)
  | 0, _, _, _ => .fuelOut
  | fuel + 1, vars, s, outs => do
    let s1 ← skip_spaces fuel s
    let r ← read_path fuel vars s1
    match r.1 with
    | some path => read_build_outs fuel vars r.2 (outs ++ [path])
    | none => pure (outs, r.2)

/-- The inputs loop of `Parser::read_build`: an optional `|` or `||`
prefix is consumed before each path. -/
def read_build_ins : Nat → List (String × String) → Scanner → List String →
    PRes (List String × Scanner)
  | 0, _, _, _ => .fuelOut
  | fuel + 1, vars, s, ins => do
    let s1 ← skip_spaces fuel s
    let c ← s1.peek
    let s2 ← (do
      if c == '|' then do
        let sa ← s1.next
        let c2 ← sa.peek
        let sb ← (if c2 == '|' then sa.next else pure sa)
        skip_spaces fuel sb
      else
        pure s1)
    let r ← read_path fuel vars s2
    match r.1 with
    | some path => read_build_ins fuel vars r.2 (ins ++ [path])
    | none => pure (ins, r.2)

/-- `Parser::read_build`. -/
def read_build (fuel : Nat) (vars : List (String × String)) (s : Scanner) :
    PRes (PBuildStmt × Scanner) := do
  let ro ← read_build_outs fuel vars s []
  let s1 ← skip_spaces fuel ro.2
  let rc ← expect ':' s1
  let s2 ← skip_spaces fuel rc.2
  let rr ← read_ident fuel s2
  let ri ← read_build_ins fuel vars rr.2 []
  let rn ← expect '\n' ri.2
  let rv ← read_scoped_vars fuel rn.2 []
  pure ({ rule := rr.1, outs := ro.1, ins := ri.1, vars := rv.1 }, rv.2)

/-- `Parser::read` from src/parse.rs (lines 161-183): the top-level
statement loop.  A NUL at top level returns no statement; newlines and
comments are skipped; leading whitespace is an error; otherwise an
identifier selects a rule, build, or default statement, or a top-level
variable definition that is evaluated into `self.vars` before the loop
continues. -/
def Parser.read : Nat → Parser → PRes (Option Statement × Parser)
  | 0, _ => .fuelOut
  | fuel + 1, p => do
    let c ← p.scanner.peek
    if c == nul then
      pure (none, p)
    else if c == '\n' then do
      let s ← p.scanner.next
      Parser.read fuel { p with scanner := s }
    else if c == '#' then do
      let s ← skip_comment fuel p.scanner
      Parser.read fuel { p with scanner := s }
    else if c == ' ' || c == '\t' then
      .perr "unexpected whitespace" p.scanner.ofs
    else do
      let ri ← read_ident fuel p.scanner
      let s1 ← skip_spaces fuel ri.2
      if ri.1 == "rule" then do
        let r ← read_rule fuel s1
        pure (some (.rule r.1), { p with scanner := r.2 })
      else if ri.1 == "build" then do
        let r ← read_build fuel p.vars s1
        pure (some (.build r.1), { p with scanner := r.2 })
      else if ri.1 == "default" then do
        let r ← read_ident fuel s1
        pure (some (.default r.1), { p with scanner := r.2 })
      else do
        let rv ← read_vardef fuel s1
        let val := PEvalString.evaluate rv.1 [p.vars]
        Parser.read fuel { scanner := rv.2, vars := assocInsert p.vars ri.1 val }

end Parse

/-- Empty registry for the C6 and C8 witness runs. -/
def c6Files0 : Files := ⟨[], [], 0, 0⟩

/-- A scope with one rule `r` (command `touch $out`) at position 0. -/
def c6Scope : Scope :=
  .mk none [("r", ⟨"r", [("command", [.literal "touch ", .varRef "out"])], 0⟩)] []

/-- A buffered build statement `build o: r i j` at position 1. -/
def c6PB : PBuild :=
  { rule := "r", outs := [[.literal "o"]], explicit_outs := 1,
    ins := [[.literal "i"], [.literal "j"]], explicit_ins := 2, implicit_ins := 0,
    order_only_ins := 0, vars := [], line := 3, scopePosition := 1 }

/-- The registry state after installing `c6PB` into `c6Files0`. -/
def c6Files2 : Files :=
  ⟨[("o", 2), ("j", 1), ("i", 0)],
   [(2, ⟨"o", some 0, []⟩), (1, ⟨"j", none, [0]⟩), (0, ⟨"i", none, [0]⟩)], 3, 1⟩

/-- The build record produced for `c6PB`. -/
def c6Build : Build :=
  { id := 0, location := ⟨"build.ninja", 3⟩, desc := none,
    cmdline := some "touch o", depfile := none, parseShowincludes := false, rspfile := none,
    pool := none, ins := ⟨[0, 1], 2, 0, 0⟩, discoveredIns := [], outs := ⟨[2], 1⟩ }

/-- The `deps` attribute as `add_build` evaluates it: the `lookup("deps")`
call against the rule's and build's variable blocks under the implicit
environment (src/load.rs line 160). -/
def buildDeps (canon : String → String) (scope : Scope) (b : PBuild) (rule : Rule) :
    Option String :=
  lookupBuildVar rule b
    (Env.buildImplicitVars
      ((b.ins.map (fun x => canon (EvalString.evaluate x [.varMap b.vars] scope b.scopePosition))).take
        b.explicit_ins)
      ((b.outs.map (fun x => canon (EvalString.evaluate x [.varMap b.vars] scope b.scopePosition))).take
        b.explicit_outs))
    scope "deps"

/-- A scope whose rule `r` carries `deps = msvc`. -/
def c8Scope : Scope := .mk none [("r", ⟨"r", [("deps", [.literal "msvc"])], 0⟩)] []

/-- A buffered build statement `build o: r i` against `c8Scope`. -/
def c8PB : PBuild where
  rule := "r"
  outs := [[.literal "o"]]
  explicit_outs := 1
  ins := [[.literal "i"]]
  explicit_ins := 1
  implicit_ins := 0
  order_only_ins := 0
  vars := []
  line := 1
  scopePosition := 1

/-- The registry state after installing `c8PB` into `c6Files0`. -/
def c8Files2 : Files :=
  ⟨[("o", 1), ("i", 0)],
   [(1, ⟨"o", some 0, []⟩), (0, ⟨"i", none, [0]⟩)], 2, 1⟩

/-- The build record produced for `c8PB`: `deps = msvc` sets
`parse_showincludes`. -/
def c8Build : Build :=
  { id := 0, location := ⟨"build.ninja", 1⟩, desc := none,
    cmdline := none, depfile := none, parseShowincludes := true, rspfile := none,
    pool := none, ins := ⟨[0], 1, 0, 0⟩, discoveredIns := [], outs := ⟨[1], 1⟩ }

/-! Theorems.  Shared helper lemmas come first, then one theorem per
claim (with its witness or counterexample where required). -/

theorem Parse.bind_ok {α β : Type} (a : α) (f : α → Parse.PRes β) :
    (Parse.PRes.ok a >>= f) = f a := rfl

theorem Parse.bind_perr {α β : Type} (m : String) (o : Nat) (f : α → Parse.PRes β) :
    (Parse.PRes.perr m o >>= f) = .perr m o := rfl

theorem Parse.bind_panicked {α β : Type} (m : String) (f : α → Parse.PRes β) :
    (Parse.PRes.panicked m >>= f) = .panicked m := rfl

theorem Parse.bind_fuelOut {α β : Type} (f : α → Parse.PRes β) :
    (Parse.PRes.fuelOut >>= f) = .fuelOut := rfl

theorem Parse.pure_eq_ok {α : Type} (a : α) : (pure a : Parse.PRes α) = .ok a := rfl

/-- Claim C1 (code bug): `Scope::evaluate` does not return the latest
assignment strictly before the queried position.  In `c1Scope`, `x` is
assigned at positions 0 (evaluating to "A") and 2, and the query position
is 1: the claim requires the position-0 assignment's value "A", but the
code probes the binary-search insertion point (the first assignment at or
after the position) instead of its predecessor and falls through to the
(absent) parent, yielding "".  Moreover the parent fallthrough passes the
child's own position instead of the mount position: in `c1Child` (mounted
at parent position 5) a query at position 1 misses the parent's `y = P`
binding at position 3 that the claim's mount-position lookup would see. -/
theorem C1_scope_evaluate_divergence :
    Scope.evaluate c1Scope "x" 1 = "" ∧
    (∃ a ∈ (c1Scope.varLists.lookup "x").getD [], a.scopePosition < 1 ∧
        VariableAssignment.evalValue a.value c1Scope a.scopePosition = "A") ∧
    Scope.evaluate c1Child "y" 1 = "" ∧
    Scope.evaluate c1Parent "y" 5 = "P" := by
  refine ⟨?_, ?_, ?_, ?_⟩
  · simp [c1Scope, Scope.evaluate, binarySearchInsertion]
  · refine ⟨⟨"x", [.literal "A"], 0⟩, ?_, ?_, ?_⟩
    · simp [c1Scope, Scope.varLists]
    · decide
    · simp [VariableAssignment.evalValue, c1Scope]
  · simp [c1Child, c1Parent, Scope.evaluate, binarySearchInsertion]
  · simp [c1Parent, Scope.evaluate, binarySearchInsertion, VariableAssignment.evalValue]

/-- Claim C3: `Scope::get_rule` returns the scope's own rule exactly when
its recorded position is strictly below the query position; otherwise the
parent is consulted at the mount position, and the result is `none`
without a parent. -/
theorem C3_scope_get_rule (parent : Option (Scope × ScopePosition))
    (rules : List (String × Rule)) (varls : List (String × List VariableAssignment))
    (r : String) (p : ScopePosition) :
    (∀ rule, rules.lookup r = some rule → rule.scopePosition < p →
      Scope.get_rule (.mk parent rules varls) r p = some rule) ∧
    (∀ rule, rules.lookup r = some rule → ¬ rule.scopePosition < p →
      Scope.get_rule (.mk parent rules varls) r p =
        (match parent with
         | some (par, mount) => par.get_rule r mount
         | none => none)) ∧
    (rules.lookup r = none →
      Scope.get_rule (.mk parent rules varls) r p =
        (match parent with
         | some (par, mount) => par.get_rule r mount
         | none => none)) := by
  refine ⟨?_, ?_, ?_⟩
  · intro rule hl hp
    rcases parent with _ | ⟨par, mount⟩ <;> simp [Scope.get_rule, hl, hp]
  · intro rule hl hp
    rcases parent with _ | ⟨par, mount⟩ <;> simp [Scope.get_rule, hl, hp]
  · intro hl
    rcases parent with _ | ⟨par, mount⟩ <;> simp [Scope.get_rule, hl]

/-- Witness for C3: a scope with rule `r` at position 3 answers a query at
position 4 with its own rule. -/
theorem C3_witness :
    Scope.get_rule (.mk none [("r", ⟨"r", [], 3⟩)] []) "r" 4 = some ⟨"r", [], 3⟩ :=
  (C3_scope_get_rule none [("r", ⟨"r", [], 3⟩)] [] "r" 4).1 ⟨"r", [], 3⟩ (by decide) (by decide)

/-- Counterexample to claim C4 as stated: on the output list `[0,0,0,1]`
with `explicit = 3` the dropped indices are 1 and 2, both inside
`[0, explicit)`, so the claim's reading decrements `explicit` to 1 (which
is also what preserving the explicit/implicit partition demands: the
deduplicated explicit prefix is just `[0]`); the code decrements the bound
it compares against, skips the second decrement, and returns
`explicit = 2`. -/
theorem C4_counterexample :
    BuildOuts.remove_duplicates ⟨[0, 0, 0, 1], 3⟩ = ⟨[0, 1], 2⟩ ∧
    (dupIndices [0, 0, 0, 1]).filter (fun i => i < 3) = [1, 2] ∧
    (BuildOuts.remove_duplicates ⟨[0, 0, 0, 1], 3⟩).explicit ≠
      3 - ((dupIndices [0, 0, 0, 1]).filter (fun i => i < 3)).length ∧
    (BuildOuts.remove_duplicates ⟨[0, 0, 0, 1], 3⟩).explicit ≠
      (firstOccur ([0, 0, 0, 1].take 3)).length := by
  refine ⟨rfl, rfl, by decide, by decide⟩

/-- Claim C5: the four input accessors are the documented segments of
`ins.ids`, each is a prefix of the next, and together they partition the
input list (under the well-formedness bound that makes the Rust slices
in-bounds). -/
theorem C5_input_segments (b : Build)
    (h : b.ins.explicit + b.ins.implicit + b.ins.orderOnly ≤ b.ins.ids.length) :
    b.explicit_ins = b.ins.ids.take b.ins.explicit ∧
    b.dirtying_ins = b.ins.ids.take (b.ins.explicit + b.ins.implicit) ∧
    b.ordering_ins = b.ins.ids.take (b.ins.explicit + b.ins.implicit + b.ins.orderOnly) ∧
    b.validation_ins = b.ins.ids.drop (b.ins.explicit + b.ins.implicit + b.ins.orderOnly) ∧
    b.explicit_ins.length = b.ins.explicit ∧
    b.dirtying_ins.length = b.ins.explicit + b.ins.implicit ∧
    b.ordering_ins.length = b.ins.explicit + b.ins.implicit + b.ins.orderOnly ∧
    b.dirtying_ins.take b.ins.explicit = b.explicit_ins ∧
    b.ordering_ins.take (b.ins.explicit + b.ins.implicit) = b.dirtying_ins ∧
    b.ins.ids.take (b.ins.explicit + b.ins.implicit + b.ins.orderOnly) = b.ordering_ins ∧
    b.explicit_ins ++ b.dirtying_ins.drop b.ins.explicit ++
      b.ordering_ins.drop (b.ins.explicit + b.ins.implicit) ++ b.validation_ins = b.ins.ids := by
  have hsum : b.ins.orderOnly + b.ins.explicit + b.ins.implicit =
      b.ins.explicit + b.ins.implicit + b.ins.orderOnly := by omega
  have h1 : b.explicit_ins ++ b.dirtying_ins.drop b.ins.explicit = b.dirtying_ins := by
    have he : b.ins.ids.take b.ins.explicit =
        (b.ins.ids.take (b.ins.explicit + b.ins.implicit)).take b.ins.explicit := by
      rw [List.take_take, min_eq_left (by omega)]
    rw [Build.explicit_ins, Build.dirtying_ins, he, List.take_append_drop]
  have h2 : b.dirtying_ins ++ b.ordering_ins.drop (b.ins.explicit + b.ins.implicit) =
      b.ordering_ins := by
    have hd : b.ins.ids.take (b.ins.explicit + b.ins.implicit) =
        (b.ins.ids.take (b.ins.orderOnly + b.ins.explicit + b.ins.implicit)).take
          (b.ins.explicit + b.ins.implicit) := by
      rw [List.take_take, min_eq_left (by omega)]
    rw [Build.dirtying_ins, Build.ordering_ins, hd, List.take_append_drop]
  have h3 : b.ordering_ins ++ b.validation_ins = b.ins.ids := by
    rw [Build.ordering_ins, Build.validation_ins, List.take_append_drop]
  refine ⟨rfl, rfl, ?_, ?_, ?_, ?_, ?_, ?_, ?_, ?_, ?_⟩
  · rw [Build.ordering_ins, hsum]
  · rw [Build.validation_ins, hsum]
  · rw [Build.explicit_ins, List.length_take]
    omega
  · rw [Build.dirtying_ins, List.length_take]
    omega
  · rw [Build.ordering_ins, List.length_take]
    omega
  · rw [Build.dirtying_ins, Build.explicit_ins, List.take_take, min_eq_left (by omega)]
  · rw [Build.ordering_ins, Build.dirtying_ins, List.take_take, min_eq_left (by omega)]
  · rw [Build.ordering_ins, hsum]
  · rw [h1, h2, h3]

/-- Witness for C5 at a six-input build with counts 2/1/1 (validation
tail of length 2). -/
theorem C5_witness :
    (Build.new 1 ⟨"f", 1⟩ ⟨[10, 20, 30, 40, 50, 60], 2, 1, 1⟩ ⟨[], 0⟩).explicit_ins = [10, 20] ∧
    (Build.new 1 ⟨"f", 1⟩ ⟨[10, 20, 30, 40, 50, 60], 2, 1, 1⟩ ⟨[], 0⟩).dirtying_ins = [10, 20, 30] ∧
    (Build.new 1 ⟨"f", 1⟩ ⟨[10, 20, 30, 40, 50, 60], 2, 1, 1⟩ ⟨[], 0⟩).ordering_ins = [10, 20, 30, 40] ∧
    (Build.new 1 ⟨"f", 1⟩ ⟨[10, 20, 30, 40, 50, 60], 2, 1, 1⟩ ⟨[], 0⟩).validation_ins = [50, 60] :=
  have h := C5_input_segments (Build.new 1 ⟨"f", 1⟩ ⟨[10, 20, 30, 40, 50, 60], 2, 1, 1⟩ ⟨[], 0⟩)
    (by decide)
  ⟨h.1.trans (by decide), h.2.1.trans (by decide), h.2.2.1.trans (by decide),
   h.2.2.2.1.trans (by decide)⟩

/-- Claim C7: the implicit build environment answers exactly the four
magic names (`in`, `in_newline`, `out`, `out_newline`) with the explicit
inputs/outputs joined by space or newline; every other name yields no
binding, so resolution falls through to the next environment. -/
theorem C7_build_implicit_vars (ins outs : List String) (v : String)
    (hv : v ≠ "in" ∧ v ≠ "in_newline" ∧ v ≠ "out" ∧ v ≠ "out_newline") :
    Env.get_var (.buildImplicitVars ins outs) "in" =
      some [.literal (String.intercalate " " ins)] ∧
    Env.get_var (.buildImplicitVars ins outs) "in_newline" =
      some [.literal (String.intercalate "\n" ins)] ∧
    Env.get_var (.buildImplicitVars ins outs) "out" =
      some [.literal (String.intercalate " " outs)] ∧
    Env.get_var (.buildImplicitVars ins outs) "out_newline" =
      some [.literal (String.intercalate "\n" outs)] ∧
    Env.get_var (.buildImplicitVars ins outs) v = none ∧
    (∀ envs scope position,
      evalUnderEnvs (.buildImplicitVars ins outs :: envs) scope position [.varRef v] =
        evalUnderEnvs envs scope position [.varRef v]) := by
  obtain ⟨h1, h2, h3, h4⟩ := hv
  have hnone : Env.get_var (.buildImplicitVars ins outs) v = none := by
    unfold Env.get_var
    split
    all_goals simp_all
  refine ⟨rfl, rfl, rfl, rfl, hnone, ?_⟩
  intro envs scope position
  have hjoin : ∀ s : String, String.join [s] = s := by
    intro s
    show "" ++ s = s
    exact (String.ext (by simp [String.append]))
  simp only [evalUnderEnvs, List.map, hnone]
  exact hjoin _

/-- Witness for C7 at concrete lists and the unanswered name `cflags`. -/
theorem C7_witness :
    Env.get_var (.buildImplicitVars ["a.c", "b.c"] ["a.o"]) "in" =
      some [.literal "a.c b.c"] ∧
    Env.get_var (.buildImplicitVars ["a.c", "b.c"] ["a.o"]) "cflags" = none :=
  have h := C7_build_implicit_vars ["a.c", "b.c"] ["a.o"] "cflags"
    (by refine ⟨?_, ?_, ?_, ?_⟩ <;> decide)
  ⟨h.1.trans (by decide), h.2.2.2.2.1⟩

/-- Counterexample to claim C9 as stated: with two distinguishable
buffered builds, the schedules `[0,1]` and `[1,0]` (two interleavings of
the id-allocating `fetch_add`) produce different results even after
sorting by `BuildId`, because both runs carry the ids 0 and 1 but attach
them to different builds; the by-index comparison of inputs/outputs
differs at index 0. -/
theorem C9_counterexample :
    loadWithSchedule c9Builds [0, 1] ≠ loadWithSchedule c9Builds [1, 0] ∧
    (loadWithSchedule c9Builds [0, 1]).map Prod.fst =
      (loadWithSchedule c9Builds [1, 0]).map Prod.fst ∧
    (loadWithSchedule c9Builds [0, 1]).map Prod.snd ≠
      (loadWithSchedule c9Builds [1, 0]).map Prod.snd := by
  refine ⟨by decide, by decide, by decide⟩

theorem map_getD_range {α : Type} (l : List α) (d : α) :
    (List.range l.length).map (fun i => l.getD i d) = l := by
  apply List.ext_getElem
  · simp
  · intro i h1 h2
    simp only [List.getElem_map, List.getElem_range]
    rw [List.getD_eq_getElem?_getD, List.getElem?_eq_getElem h2]
    rfl

/-- Claim C9, amended: for a fixed schedule of the id-allocating
`fetch_add` the load is a function of the manifest, the ids are exactly
`0..n`, and any two schedules that are permutations of the build indices
yield the same builds up to permutation; but the by-index comparison after
sorting by `BuildId` is schedule-dependent (see the counterexample). -/
theorem C9_amended (builds : List BuildSummary) (sched : List Nat)
    (hperm : sched.Perm (List.range builds.length)) :
    ((loadWithSchedule builds sched).map Prod.snd).Perm builds ∧
    (loadWithSchedule builds sched).map Prod.fst = List.range builds.length ∧
    (∀ sched2, sched2.Perm (List.range builds.length) →
      ((loadWithSchedule builds sched2).map Prod.snd).Perm
        ((loadWithSchedule builds sched).map Prod.snd)) := by
  have hlen : ∀ s : List Nat, s.Perm (List.range builds.length) → s.length = builds.length := by
    intro s hs
    have := hs.length_eq
    simpa using this
  have hsnd : ∀ s : List Nat, (loadWithSchedule builds s).map Prod.snd =
      s.map (fun k => builds.getD k default) := by
    intro s
    unfold loadWithSchedule
    rw [List.map_map]
    have : (Prod.snd ∘ fun j => ((j : Nat), builds.getD (s.getD j 0) default)) =
        (fun k => builds.getD k default) ∘ (fun j => s.getD j 0) := rfl
    rw [this, ← List.map_map]
    congr 1
    have := map_getD_range s 0
    conv_rhs => rw [← this]
  have hperm1 : ∀ s : List Nat, s.Perm (List.range builds.length) →
      ((loadWithSchedule builds s).map Prod.snd).Perm builds := by
    intro s hs
    rw [hsnd s]
    have h1 : (s.map (fun k => builds.getD k default)).Perm
        ((List.range builds.length).map (fun k => builds.getD k default)) := hs.map _
    rw [map_getD_range builds default] at h1
    exact h1
  refine ⟨hperm1 sched hperm, ?_, ?_⟩
  · unfold loadWithSchedule
    rw [List.map_map]
    have : (Prod.fst ∘ fun j => ((j : Nat), builds.getD (sched.getD j 0) default)) =
        fun j => j := rfl
    rw [this, List.map_id', hlen sched hperm]
  · intro sched2 h2
    exact (hperm1 sched2 h2).trans (hperm1 sched hperm).symm

/-- Witness for the amended C9 at the swapped schedule. -/
theorem C9_witness :
    ((loadWithSchedule c9Builds [1, 0]).map Prod.snd).Perm c9Builds ∧
    (loadWithSchedule c9Builds [1, 0]).map Prod.fst = List.range c9Builds.length :=
  have h := C9_amended c9Builds [1, 0] (by decide)
  ⟨h.1, h.2.1⟩

/-- Counterexample to claim C2 as stated: installing a build that lists
output file 0 twice succeeds with the duplicate collapsed, but the
warning the code emits goes through `println!`, i.e. to standard output --
no message is sent to standard error as the claim requires. -/
theorem C2_counterexample :
    Graph.initialize_build c2Store c2Build =
      .ok ([(0, ⟨"x", some 7, []⟩), (1, ⟨"y", some 7, []⟩)],
        { c2Build with outs := ⟨[0, 1], 1⟩ },
        [⟨Chan.stdout, "n2: warn: build.ninja:3: x is repeated in output list"⟩]) ∧
    (∀ w ∈ [(⟨Chan.stdout, "n2: warn: build.ninja:3: x is repeated in output list"⟩ : Warning)],
      w.chan ≠ Chan.stderr) := by
  exact ⟨rfl, by decide⟩

/-- Claim C2, amended (the warning goes to standard output, not standard
error): processing an output during graph finalisation takes exactly one
of three steps depending on the producer slot -- an empty slot is set to
this build's id and installation continues; a slot holding this same id
marks `fixup_dups`, appends a standard-output warning, and continues
without failing; a slot holding a different id aborts with the
"already an output" error.  On overall success a set `fixup_dups` flag
makes `initialize_build` run `remove_duplicates` on the output list. -/
theorem C2_output_slot_cases (store : FileStore) (newId : Nat) (loc : FileLoc)
    (fid : Nat) (rest : List Nat) (fixup : Bool) (warns : List Warning) :
    (((lookupFile store fid).getD default).input = none →
      installOuts store newId loc (fid :: rest) fixup warns =
        installOuts (updateFile store fid (fun g => { g with input := some newId }))
          newId loc rest fixup warns) ∧
    (((lookupFile store fid).getD default).input = some newId →
      installOuts store newId loc (fid :: rest) fixup warns =
        installOuts store newId loc rest true
          (warns ++ [⟨Chan.stdout, "n2: warn: " ++ loc.render ++ ": " ++
            ((lookupFile store fid).getD default).name ++ " is repeated in output list"⟩])) ∧
    (∀ other, ((lookupFile store fid).getD default).input = some other → other ≠ newId →
      installOuts store newId loc (fid :: rest) fixup warns =
        .error (loc.render ++ ": " ++ ((lookupFile store fid).getD default).name ++
          " is already an output at ")) ∧
    (∀ (build : Build) (store2 : FileStore) (fix2 : Bool) (w2 : List Warning),
      installOuts store build.id build.location build.outs.ids false [] =
        .ok (store2, fix2, w2) →
      Graph.initialize_build store build =
        .ok (store2,
          if fix2 then { build with outs := build.outs.remove_duplicates } else build,
          w2)) := by
  refine ⟨?_, ?_, ?_, ?_⟩
  · intro h
    simp only [installOuts, h]
  · intro h
    simp only [installOuts, h]
    rw [if_pos (by simp)]
  · intro other h hne
    simp only [installOuts, h]
    rw [if_neg (by simpa using hne)]
  · intro build store2 fix2 w2 h
    simp only [Graph.initialize_build, h]

/-- Witness for the amended C2: a slot already holding this build's id
turns into a standard-output warning and a set fixup flag. -/
theorem C2_witness :
    installOuts [(5, ⟨"out.o", some 9, []⟩)] 9 ⟨"m", 1⟩ [5] false [] =
      installOuts [(5, ⟨"out.o", some 9, []⟩)] 9 ⟨"m", 1⟩ [] true
        [⟨Chan.stdout, "n2: warn: m:1: out.o is repeated in output list"⟩] :=
  (C2_output_slot_cases [(5, ⟨"out.o", some 9, []⟩)] 9 ⟨"m", 1⟩ 5 [] false []).2.1 rfl

theorem mem_foldl_firstOccur (l : List Nat) : ∀ (acc : List Nat) (x : Nat),
    x ∈ l.foldl (fun acc x => if acc.contains x then acc else acc ++ [x]) acc ↔
      x ∈ acc ∨ x ∈ l := by
  induction l with
  | nil => simp
  | cons y l ih =>
    intro acc x
    simp only [List.foldl_cons]
    by_cases hy : acc.contains y
    · rw [if_pos hy, ih]
      have hmem : y ∈ acc := List.elem_iff.mp hy
      simp only [List.mem_cons]
      constructor
      · rintro (h | h)
        · exact Or.inl h
        · exact Or.inr (Or.inr h)
      · rintro (h | rfl | h)
        · exact Or.inl h
        · exact Or.inl hmem
        · exact Or.inr h
    · rw [if_neg hy, ih]
      simp only [List.mem_append, List.mem_singleton, List.mem_cons]
      tauto

theorem contains_firstOccur (l : List Nat) (x : Nat) :
    (firstOccur l).contains x = l.contains x := by
  have h1 : x ∈ firstOccur l ↔ x ∈ l := by
    unfold firstOccur
    rw [mem_foldl_firstOccur]
    simp
  by_cases h : x ∈ l
  · have := h1.mpr h
    rw [List.elem_iff.symm] at this h
    simp only [this, h]
  · have : ¬ x ∈ firstOccur l := fun hx => h (h1.mp hx)
    rw [show ∀ m : List Nat, ¬ x ∈ m → m.contains x = false from
      fun m hm => by simpa using hm, show (l.contains x) = false by simpa using h]
    exact this

theorem contains_eq_any (l : List Nat) (x : Nat) :
    l.contains x = l.any (fun prev => prev == x) := by
  rw [Bool.eq_iff_iff, List.elem_iff, List.any_eq_true]
  constructor
  · intro h
    exact ⟨x, h, by simp⟩
  · rintro ⟨a, ha, he⟩
    exact (beq_iff_eq.mp he) ▸ ha

theorem removeDuplicatesGo_ids (orig : List Nat) : ∀ (rest : List Nat) (i expl : Nat),
    rest = orig.drop i →
    rest.foldl (fun acc x => if acc.contains x then acc else acc ++ [x])
        (firstOccur (orig.take i)) =
      firstOccur (orig.take i) ++ (removeDuplicatesGo orig i rest expl).1 := by
  intro rest
  induction rest with
  | nil =>
    intro i expl _
    rw [List.foldl_nil, show (removeDuplicatesGo orig i [] expl).1 = [] from rfl,
      List.append_nil]
  | cons x rest2 ih =>
    intro i expl heq
    have hi : i < orig.length := by
      by_contra hge
      rw [List.drop_eq_nil_iff.mpr (by omega)] at heq
      exact List.noConfusion heq
    have hcons : orig[i] :: orig.drop (i + 1) = x :: rest2 :=
      (List.drop_eq_getElem_cons hi).symm.trans heq.symm
    obtain ⟨hx, hdrop⟩ := List.cons_eq_cons.mp hcons
    have hrest : rest2 = orig.drop (i + 1) := hdrop.symm
    have htake : orig.take (i + 1) = orig.take i ++ [x] := by
      rw [← hx]
      exact (List.take_concat_get' orig i hi).symm
    have hcond : (firstOccur (orig.take i)).contains x =
        (orig.take i).any (fun prev => prev == x) := by
      rw [contains_firstOccur, contains_eq_any]
    have hfo : firstOccur (orig.take (i + 1)) =
        if (firstOccur (orig.take i)).contains x then firstOccur (orig.take i)
        else firstOccur (orig.take i) ++ [x] := by
      rw [htake]
      unfold firstOccur
      rw [List.foldl_append]
      rfl
    simp only [List.foldl_cons, removeDuplicatesGo, hcond]
    rcases Bool.eq_false_or_eq_true ((orig.take i).any (fun prev => prev == x)) with hdup | hdup
    · -- duplicate: x is skipped
      have hfo2 : firstOccur (orig.take (i + 1)) = firstOccur (orig.take i) := by
        rw [hfo, hcond]
        exact if_pos hdup
      have hih := ih (i + 1) (if i < expl then expl - 1 else expl) hrest
      rw [hfo2] at hih
      rw [if_pos hdup, if_pos hdup]
      exact hih
    · -- not a duplicate: x is pushed
      have hnc : ¬ (((orig.take i).any (fun prev => prev == x)) = true) := by
        simp [hdup]
      have hfo2 : firstOccur (orig.take (i + 1)) = firstOccur (orig.take i) ++ [x] := by
        rw [hfo, hcond]
        exact if_neg hnc
      have hih := ih (i + 1) expl hrest
      rw [hfo2] at hih
      rw [if_neg hnc, if_neg hnc, hih, List.append_assoc]
      rfl

theorem removeDuplicatesGo_explicit (orig : List Nat) : ∀ (rest : List Nat) (i expl : Nat),
    rest = orig.drop i →
    (removeDuplicatesGo orig i rest expl).2 =
      ((List.range' i (orig.length - i)).filter
          (fun j => (orig.take j).any (fun prev => prev == orig.getD j 0))).foldl
        (fun e j => if j < e then e - 1 else e) expl := by
  intro rest
  induction rest with
  | nil =>
    intro i expl heq
    have hle : orig.length ≤ i := by
      by_contra hlt
      rw [List.drop_eq_getElem_cons (by omega)] at heq
      exact List.noConfusion heq.symm
    rw [show orig.length - i = 0 by omega]
    rfl
  | cons x rest2 ih =>
    intro i expl heq
    have hi : i < orig.length := by
      by_contra hge
      rw [List.drop_eq_nil_iff.mpr (by omega)] at heq
      exact List.noConfusion heq
    have hcons : orig[i] :: orig.drop (i + 1) = x :: rest2 :=
      (List.drop_eq_getElem_cons hi).symm.trans heq.symm
    obtain ⟨hx, hdrop⟩ := List.cons_eq_cons.mp hcons
    have hrest : rest2 = orig.drop (i + 1) := hdrop.symm
    have hgetD : orig.getD i 0 = x := by
      rw [List.getD_eq_getElem?_getD, List.getElem?_eq_getElem hi, hx]
      rfl
    have hrange : List.range' i (orig.length - i) =
        i :: List.range' (i + 1) (orig.length - (i + 1)) := by
      rw [show orig.length - i = (orig.length - (i + 1)) + 1 by omega, List.range'_succ]
    simp only [removeDuplicatesGo, hrange, List.filter_cons, hgetD]
    rcases Bool.eq_false_or_eq_true ((orig.take i).any (fun prev => prev == x)) with hdup | hdup
    · -- duplicate: decrement against the current count, keep index i
      rw [if_pos hdup, if_pos hdup]
      simp only [List.foldl_cons]
      exact ih (i + 1) (if i < expl then expl - 1 else expl) hrest
    · -- not a duplicate
      have hnc : ¬ (((orig.take i).any (fun prev => prev == x)) = true) := by
        simp [hdup]
      rw [if_neg hnc, if_neg hnc]
      exact ih (i + 1) expl hrest

/-- Claim C4, amended: `remove_duplicates` keeps exactly the first
occurrence of every interned reference, in order; and for each dropped
index `i` (in ascending order) the explicit count is decremented by one
exactly when `i` is below the current, already partially decremented
count -- not the original `explicit` -- so the explicit/implicit
partition is not preserved in general (see the counterexample). -/
theorem C4_remove_duplicates (outs : BuildOuts) :
    (outs.remove_duplicates).ids = firstOccur outs.ids ∧
    (outs.remove_duplicates).explicit =
      (dupIndices outs.ids).foldl (fun e i => if i < e then e - 1 else e) outs.explicit := by
  constructor
  · show (removeDuplicatesGo outs.ids 0 outs.ids outs.explicit).1 = firstOccur outs.ids
    have h := removeDuplicatesGo_ids outs.ids outs.ids 0 outs.explicit (by simp)
    simp only [List.take_zero] at h
    rw [show firstOccur ([] : List Nat) = [] from rfl, List.nil_append] at h
    exact h.symm
  · show (removeDuplicatesGo outs.ids 0 outs.ids outs.explicit).2 = _
    have h := removeDuplicatesGo_explicit outs.ids outs.ids 0 outs.explicit (by simp)
    rw [h]
    unfold dupIndices
    rw [List.range_eq_range']
    simp


theorem find?_cons_eq {α : Type} (p : α → Bool) (a : α) (l : List α) :
    (a :: l).find? p = if p a then some a else l.find? p := by
  cases hpa : p a <;> simp [List.find?_cons, hpa]

theorem lookup_mem {k : String} {v : Nat} : ∀ {l : List (String × Nat)},
    l.lookup k = some v → (k, v) ∈ l := by
  intro l
  induction l with
  | nil => intro h; simp [List.lookup] at h
  | cons p rest ih =>
    intro h
    obtain ⟨a, b⟩ := p
    rw [List.lookup_cons] at h
    cases hak : (k == a) with
    | true =>
      rw [hak] at h
      simp only [] at h
      obtain rfl := beq_iff_eq.mp hak
      injection h with h2
      rw [h2]
      exact List.mem_cons_self _ _
    | false =>
      rw [hak] at h
      simp only [] at h
      exact List.mem_cons_of_mem _ (ih h)

theorem lookupFile_cons (k : Nat) (f : NFile) (store : FileStore) (fid : Nat) :
    lookupFile ((k, f) :: store) fid = if k == fid then some f else lookupFile store fid := by
  unfold lookupFile
  rw [find?_cons_eq]
  cases h : (k == fid) <;> simp [h]

theorem updateFile_cons (k : Nat) (v : NFile) (store : FileStore) (fid : Nat) (f : NFile → NFile) :
    updateFile ((k, v) :: store) fid f =
      (if k == fid then (k, f v) else (k, v)) :: updateFile store fid f := rfl

theorem lookupFile_updateFile (store : FileStore) (fid : Nat) (f : NFile → NFile) (g : Nat) :
    lookupFile (updateFile store fid f) g =
      if fid == g then (lookupFile store g).map f else lookupFile store g := by
  induction store with
  | nil =>
    cases h : (fid == g) <;> simp [lookupFile, updateFile, h]
  | cons p rest ih =>
    obtain ⟨k, v⟩ := p
    rw [updateFile_cons]
    by_cases h1 : k = fid <;> by_cases h2 : k = g <;> by_cases h3 : fid = g <;>
      simp_all [lookupFile_cons, beq_iff_eq]

theorem mem_updateFile {p : Nat × NFile} {store : FileStore} {fid : Nat} {f : NFile → NFile}
    (h : p ∈ updateFile store fid f) : ∃ q ∈ store, p.1 = q.1 := by
  unfold updateFile at h
  obtain ⟨q, hq, hpq⟩ := List.mem_map.mp h
  refine ⟨q, hq, ?_⟩
  cases hk : (q.1 == fid) with
  | true =>
    rw [hk] at hpq
    have h2 : (q.1, f q.2) = p := by simpa using hpq
    rw [← h2]
  | false =>
    rw [hk] at hpq
    have h2 : q = p := by simpa using hpq
    rw [← h2]

theorem storeDeps_updateFile_input (store : FileStore) (fid0 bid g : Nat) :
    storeDeps (updateFile store fid0 (fun h => { h with input := some bid })) g =
      storeDeps store g := by
  unfold storeDeps
  rw [lookupFile_updateFile]
  cases h : (fid0 == g) with
  | false => simp
  | true =>
    cases hlk : lookupFile store g <;> simp [hlk]

theorem installOuts_storeDeps : ∀ (outs : List Nat) (store : FileStore) (newId : Nat)
    (loc : FileLoc) (fixup : Bool) (warns : List Warning) (store2 : FileStore) (fix2 : Bool)
    (w2 : List Warning),
    installOuts store newId loc outs fixup warns = .ok (store2, fix2, w2) →
    ∀ g, storeDeps store2 g = storeDeps store g := by
  intro outs
  induction outs with
  | nil =>
    intro store newId loc fixup warns store2 fix2 w2 h g
    simp only [installOuts] at h
    injection h with h2
    injection h2 with h3 _
    rw [← h3]
  | cons fid rest ih =>
    intro store newId loc fixup warns store2 fix2 w2 h g
    simp only [installOuts] at h
    cases hin : ((lookupFile store fid).getD default).input with
    | some prev =>
      rw [hin] at h
      simp only [] at h
      cases hpn : (prev == newId) with
      | false => rw [hpn] at h; simp at h
      | true =>
        rw [hpn] at h
        rw [if_pos rfl] at h
        exact ih _ _ _ _ _ _ _ _ h g
    | none =>
      rw [hin] at h
      simp only [] at h
      have h2 := ih _ _ _ _ _ _ _ _ h g
      rw [h2, storeDeps_updateFile_input]

theorem internAdd_spec (files : Files) (s : String) (bid : Nat) (hwf : files.wf) :
    (files.id_from_canonical_and_add_dependant s bid).2.wf ∧
    files.nextId ≤ (files.id_from_canonical_and_add_dependant s bid).2.nextId ∧
    (files.id_from_canonical_and_add_dependant s bid).1 <
      (files.id_from_canonical_and_add_dependant s bid).2.nextId ∧
    bid ∈ (files.id_from_canonical_and_add_dependant s bid).2.dependentsOf
      (files.id_from_canonical_and_add_dependant s bid).1 ∧
    (∀ g, g < files.nextId → ∀ x, x ∈ files.dependentsOf g →
      x ∈ (files.id_from_canonical_and_add_dependant s bid).2.dependentsOf g) := by
  obtain ⟨hwf1, hwf2, hwf3⟩ := hwf
  unfold Files.id_from_canonical_and_add_dependant
  cases hlk : files.byName.lookup s with
  | some id =>
    simp only []
    have hmem := lookup_mem hlk
    have hid : id < files.nextId := hwf2 (s, id) hmem
    obtain ⟨file, hfile⟩ := hwf3 (s, id) hmem
    refine ⟨⟨?_, hwf2, ?_⟩, le_refl _, hid, ?_, ?_⟩
    · intro p hp
      have hp2 : p ∈ updateFile files.byId id
          (fun g => { g with dependents := bid :: g.dependents }) := hp
      obtain ⟨q, hq, hkey⟩ := mem_updateFile hp2
      rw [hkey]
      exact hwf1 q hq
    · intro p hp
      rw [lookupFile_updateFile]
      obtain ⟨fl, hfl⟩ := hwf3 p hp
      cases hidp : (id == p.2) with
      | false => exact ⟨fl, hfl⟩
      | true => exact ⟨_, by rw [hfl]; rfl⟩
    · unfold Files.dependentsOf storeDeps
      simp only []
      rw [lookupFile_updateFile]
      rw [if_pos (by simp), hfile]
      simp
    · intro g hg x hx
      unfold Files.dependentsOf storeDeps at *
      simp only []
      rw [lookupFile_updateFile]
      cases hidg : (id == g) with
      | false => exact hx
      | true =>
        obtain rfl := beq_iff_eq.mp hidg
        rw [if_pos rfl, hfile]
        rw [hfile] at hx
        simp only [Option.map_some, Option.getD_some] at *
        exact List.mem_cons_of_mem _ hx
  | none =>
    simp only []
    refine ⟨⟨?_, ?_, ?_⟩, by simp, by simp, ?_, ?_⟩
    · intro p hp
      rw [List.mem_cons] at hp
      rcases hp with rfl | hp
      · simp
      · have := hwf1 p hp
        simp
        omega
    · intro p hp
      rw [List.mem_cons] at hp
      rcases hp with rfl | hp
      · simp
      · have := hwf2 p hp
        simp
        omega
    · intro p hp
      rw [List.mem_cons] at hp
      rcases hp with rfl | hp
      · refine ⟨⟨s, none, [bid]⟩, ?_⟩
        rw [lookupFile_cons, if_pos (by simp)]
      · obtain ⟨fl, hfl⟩ := hwf3 p hp
        have hlt : p.2 < files.nextId := hwf2 p hp
        refine ⟨fl, ?_⟩
        rw [lookupFile_cons, if_neg (by simp; omega), hfl]
    · unfold Files.dependentsOf storeDeps
      simp only []
      rw [lookupFile_cons, if_pos (by simp)]
      simp
    · intro g hg x hx
      unfold Files.dependentsOf storeDeps at *
      simp only []
      rw [lookupFile_cons, if_neg (by simp; omega)]
      exact hx

theorem internOut_spec (files : Files) (s : String) (hwf : files.wf) :
    (files.id_from_canonical s).2.wf ∧
    files.nextId ≤ (files.id_from_canonical s).2.nextId ∧
    (∀ g, g < files.nextId →
      (files.id_from_canonical s).2.dependentsOf g = files.dependentsOf g) := by
  obtain ⟨hwf1, hwf2, hwf3⟩ := hwf
  unfold Files.id_from_canonical
  cases hlk : files.byName.lookup s with
  | some id =>
    simp only []
    refine ⟨⟨hwf1, hwf2, hwf3⟩, le_refl _, ?_⟩
    intro g hg
    trivial
  | none =>
    simp only []
    refine ⟨⟨?_, ?_, ?_⟩, by simp, ?_⟩
    · intro p hp
      rw [List.mem_cons] at hp
      rcases hp with rfl | hp
      · simp
      · have := hwf1 p hp
        simp
        omega
    · intro p hp
      rw [List.mem_cons] at hp
      rcases hp with rfl | hp
      · simp
      · have := hwf2 p hp
        simp
        omega
    · intro p hp
      rw [List.mem_cons] at hp
      rcases hp with rfl | hp
      · refine ⟨⟨s, none, []⟩, ?_⟩
        rw [lookupFile_cons, if_pos (by simp)]
      · obtain ⟨fl, hfl⟩ := hwf3 p hp
        have hlt : p.2 < files.nextId := hwf2 p hp
        refine ⟨fl, ?_⟩
        rw [lookupFile_cons, if_neg (by simp; omega), hfl]
    · intro g hg
      unfold Files.dependentsOf storeDeps
      simp only []
      rw [lookupFile_cons, if_neg (by simp; omega)]

theorem internIns_spec : ∀ (strs : List String) (files : Files) (bid : Nat), files.wf →
    (internIns files strs bid).2.wf ∧
    files.nextId ≤ (internIns files strs bid).2.nextId ∧
    (∀ fid ∈ (internIns files strs bid).1,
      fid < (internIns files strs bid).2.nextId ∧
      bid ∈ (internIns files strs bid).2.dependentsOf fid) ∧
    (∀ g, g < files.nextId → ∀ x, x ∈ files.dependentsOf g →
      x ∈ (internIns files strs bid).2.dependentsOf g) := by
  intro strs
  induction strs with
  | nil =>
    intro files bid hwf
    exact ⟨hwf, le_refl _, by simp [internIns], fun g _ x hx => hx⟩
  | cons s rest ih =>
    intro files bid hwf
    obtain ⟨hwf1, hnext1, hlt1, hdep1, hpres1⟩ := internAdd_spec files s bid hwf
    obtain ⟨hwf2, hnext2, hmem2, hpres2⟩ :=
      ih (files.id_from_canonical_and_add_dependant s bid).2 bid hwf1
    simp only [internIns]
    refine ⟨hwf2, le_trans hnext1 hnext2, ?_, ?_⟩
    · intro fid hfid
      rw [List.mem_cons] at hfid
      rcases hfid with rfl | hfid
      · exact ⟨lt_of_lt_of_le hlt1 hnext2, hpres2 _ hlt1 bid hdep1⟩
      · exact hmem2 fid hfid
    · intro g hg x hx
      exact hpres2 g (lt_of_lt_of_le hg hnext1) x (hpres1 g hg x hx)

theorem internOuts_spec : ∀ (strs : List String) (files : Files), files.wf →
    (internOuts files strs).2.wf ∧
    files.nextId ≤ (internOuts files strs).2.nextId ∧
    (∀ g, g < files.nextId →
      (internOuts files strs).2.dependentsOf g = files.dependentsOf g) := by
  intro strs
  induction strs with
  | nil =>
    intro files hwf
    exact ⟨hwf, le_refl _, fun g _ => rfl⟩
  | cons s rest ih =>
    intro files hwf
    obtain ⟨hwf1, hnext1, hpres1⟩ := internOut_spec files s hwf
    obtain ⟨hwf2, hnext2, hpres2⟩ := ih (files.id_from_canonical s).2 hwf1
    simp only [internOuts]
    refine ⟨hwf2, le_trans hnext1 hnext2, ?_⟩
    intro g hg
    rw [hpres2 g (lt_of_lt_of_le hg hnext1), hpres1 g hg]

theorem initialize_build_fields (store : FileStore) (bd : Build) (st : FileStore)
    (b2 : Build) (w : List Warning)
    (h : Graph.initialize_build store bd = .ok (st, b2, w)) :
    b2.parseShowincludes = bd.parseShowincludes ∧ b2.id = bd.id ∧ b2.ins = bd.ins ∧
    (∀ g, storeDeps st g = storeDeps store g) := by
  unfold Graph.initialize_build at h
  cases hio : installOuts store bd.id bd.location bd.outs.ids false [] with
  | error e =>
    rw [hio] at h
    exact absurd h (by simp)
  | ok trip =>
    obtain ⟨st2, fix, w2⟩ := trip
    rw [hio] at h
    simp only [] at h
    injection h with h2
    rw [Prod.mk.injEq, Prod.mk.injEq] at h2
    obtain ⟨h3, h4, h5⟩ := h2
    have hdeps := installOuts_storeDeps _ _ _ _ _ _ _ _ _ hio
    subst h3
    rw [← h4]
    cases fix <;> exact ⟨rfl, rfl, rfl, hdeps⟩

/-- Claim C6: after a successful `add_build`, the id of the new build is a
member of the dependents list of every file in its `dirtying_ins` (all
inputs, in fact, are interned with the dependent-adding
`id_from_canonical_and_add_dependant`, while outputs use the plain
`id_from_canonical`). -/
theorem C6_inputs_register_dependent (canon : String → String) (files : Files)
    (filename : String) (scope : Scope) (b : PBuild) (files2 : Files) (build : Build)
    (warns : List Warning) (hwf : files.wf)
    (h : add_build canon files filename scope b = .ok (files2, build, warns)) :
    ∀ fid ∈ build.dirtying_ins, build.id ∈ files2.dependentsOf fid := by
  unfold add_build at h
  cases hrule : scope.get_rule b.rule b.scopePosition with
  | none =>
    rw [hrule] at h
    exact absurd h (by simp)
  | some rule =>
    rw [hrule] at h
    simp only [] at h
    split at h
    · exact absurd h (by simp)
    · split at h
      · exact absurd h (by simp)
      · split at h
        · exact absurd h (by simp)
        · rename_i psi hds rsp hrsp store b2 w2 hinit
          injection h with h2
          rw [Prod.mk.injEq, Prod.mk.injEq] at h2
          obtain ⟨hf2, hb2, hw2⟩ := h2
          obtain ⟨_, hid, hins, hdeps⟩ := initialize_build_fields _ _ _ _ _ hinit
          intro fid hfid
          have hfid2 : fid ∈ build.ins.ids :=
            List.mem_of_mem_take hfid
          subst hb2
          rw [hins] at hfid2
          have hfid3 : fid ∈ (internIns files.create_build_id.2
              (b.ins.map (fun x => canon (EvalString.evaluate x [.varMap b.vars] scope b.scopePosition)))
              files.create_build_id.1).1 := hfid2
          have hwf0 : (files.create_build_id.2).wf := hwf
          obtain ⟨hwfI, hnextI, hmemI, _⟩ := internIns_spec
            (b.ins.map (fun x => canon (EvalString.evaluate x [.varMap b.vars] scope b.scopePosition)))
            files.create_build_id.2 files.create_build_id.1 hwf0
          obtain ⟨hfidlt, hdep⟩ := hmemI fid hfid3
          obtain ⟨hwfO, hnextO, hpresO⟩ := internOuts_spec
            (b.outs.map (fun x => canon (EvalString.evaluate x [.varMap b.vars] scope b.scopePosition)))
            _ hwfI
          rw [← hf2]
          show b2.id ∈ storeDeps store fid
          rw [hid]
          show files.create_build_id.1 ∈ storeDeps store fid
          rw [hdeps fid]
          show files.create_build_id.1 ∈ Files.dependentsOf (internOuts
            (internIns files.create_build_id.2
              (b.ins.map (fun x => canon (EvalString.evaluate x [.varMap b.vars] scope b.scopePosition)))
              files.create_build_id.1).2
            (b.outs.map (fun x => canon (EvalString.evaluate x [.varMap b.vars] scope b.scopePosition)))).2 fid
          rw [hpresO fid hfidlt]
          exact hdep

/-- Witness for C6 on the concrete `build o: r i j` run: the new build's
id 0 is registered as a dependent of both input files (ids 0 and 1). -/
theorem C6_witness :
    c6Build.id ∈ c6Files2.dependentsOf 0 ∧ c6Build.id ∈ c6Files2.dependentsOf 1 :=
  ⟨C6_inputs_register_dependent id c6Files0 "build.ninja" c6Scope c6PB c6Files2 c6Build []
     (by refine ⟨?_, ?_, ?_⟩ <;> simp [c6Files0]) rfl 0 (by decide),
   C6_inputs_register_dependent id c6Files0 "build.ninja" c6Scope c6PB c6Files2 c6Build []
     (by refine ⟨?_, ?_, ?_⟩ <;> simp [c6Files0]) rfl 1 (by decide)⟩


theorem add_build_showincludes (canon : String → String) (files : Files) (filename : String)
    (scope : Scope) (b : PBuild) (rule : Rule) (psi : Bool)
    (hrule : scope.get_rule b.rule b.scopePosition = some rule)
    (hds : depsShowincludes (buildDeps canon scope b rule) = .ok psi) :
    ∀ files2 build warns, add_build canon files filename scope b = .ok (files2, build, warns) →
      build.parseShowincludes = psi := by
  intro files2 build warns h
  unfold add_build at h
  rw [hrule] at h
  simp only [] at h
  have hds2 : depsShowincludes (lookupBuildVar rule b
      (Env.buildImplicitVars
        ((b.ins.map (fun x => canon (EvalString.evaluate x [.varMap b.vars] scope b.scopePosition))).take
          b.explicit_ins)
        ((b.outs.map (fun x => canon (EvalString.evaluate x [.varMap b.vars] scope b.scopePosition))).take
          b.explicit_outs))
      scope "deps") = .ok psi := hds
  rw [hds2] at h
  simp only [] at h
  split at h
  · exact absurd h (by simp)
  · split at h
    · exact absurd h (by simp)
    · rename_i rsp hrsp store b2 w2 hinit
      injection h with h2
      rw [Prod.mk.injEq, Prod.mk.injEq] at h2
      obtain ⟨hf2, hb2, hw2⟩ := h2
      obtain ⟨hpsi, _, _, _⟩ := initialize_build_fields _ _ _ _ _ hinit
      rw [← hb2, hpsi]

/-- Claim C8: during build-record construction the evaluated `deps`
attribute may only be absent, "gcc", or "msvc" -- absent and "gcc" leave
`parse_showincludes` false, "msvc" sets it true, and any other value makes
construction fail with the invalid-deps error. -/
theorem C8_deps_attribute (canon : String → String) (files : Files) (filename : String)
    (scope : Scope) (b : PBuild) (rule : Rule)
    (hrule : scope.get_rule b.rule b.scopePosition = some rule) :
    (buildDeps canon scope b rule = none ∨ buildDeps canon scope b rule = some "gcc" →
      ∀ files2 build warns,
        add_build canon files filename scope b = .ok (files2, build, warns) →
        build.parseShowincludes = false) ∧
    (buildDeps canon scope b rule = some "msvc" →
      ∀ files2 build warns,
        add_build canon files filename scope b = .ok (files2, build, warns) →
        build.parseShowincludes = true) ∧
    (∀ other, buildDeps canon scope b rule = some other → other ≠ "gcc" → other ≠ "msvc" →
      add_build canon files filename scope b =
        .error ("invalid deps attribute " ++ other)) := by
  refine ⟨?_, ?_, ?_⟩
  · intro hd
    apply add_build_showincludes canon files filename scope b rule false hrule
    rcases hd with hd | hd <;> rw [hd] <;> rfl
  · intro hd
    apply add_build_showincludes canon files filename scope b rule true hrule
    rw [hd]
    rfl
  · intro other hother hne1 hne2
    have herr : depsShowincludes (buildDeps canon scope b rule) =
        .error ("invalid deps attribute " ++ other) := by
      rw [hother]
      unfold depsShowincludes
      split
      all_goals simp_all
    unfold add_build
    rw [hrule]
    simp only []
    have herr2 : depsShowincludes (lookupBuildVar rule b
        (Env.buildImplicitVars
          ((b.ins.map (fun x => canon (EvalString.evaluate x [.varMap b.vars] scope b.scopePosition))).take
            b.explicit_ins)
          ((b.outs.map (fun x => canon (EvalString.evaluate x [.varMap b.vars] scope b.scopePosition))).take
            b.explicit_outs))
        scope "deps") = .error ("invalid deps attribute " ++ other) := herr
    rw [herr2]

/-- Witness for C8: the concrete `deps = msvc` run sets
`parse_showincludes` on the produced build. -/
theorem C8_witness : c8Build.parseShowincludes = true :=
  (C8_deps_attribute id c6Files0 "build.ninja" c8Scope c8PB
      ⟨"r", [("deps", [.literal "msvc"])], 0⟩ rfl).2.1
    rfl c8Files2 c8Build [] rfl

theorem parserRead_none_peek_nul : ∀ (fuel : Nat) (p q : Parse.Parser),
    Parse.Parser.read fuel p = .ok (none, q) → q.scanner.peek = .ok Parse.nul := by
  intro fuel
  induction fuel with
  | zero =>
    intro p q h
    exact absurd h (by simp [Parse.Parser.read])
  | succ n ih =>
    intro p q h
    simp only [Parse.Parser.read] at h
    cases hpk : p.scanner.peek with
    | perr m o => rw [hpk, Parse.bind_perr] at h; exact absurd h (by simp)
    | panicked m => rw [hpk, Parse.bind_panicked] at h; exact absurd h (by simp)
    | fuelOut => rw [hpk, Parse.bind_fuelOut] at h; exact absurd h (by simp)
    | ok c =>
      rw [hpk, Parse.bind_ok] at h
      by_cases h1 : (c == Parse.nul) = true
      · rw [if_pos h1, Parse.pure_eq_ok] at h
        injection h with h2
        rw [Prod.mk.injEq] at h2
        obtain ⟨_, hq⟩ := h2
        rw [hq, show c = Parse.nul from beq_iff_eq.mp h1] at hpk
        exact hpk
      · rw [if_neg h1] at h
        by_cases h2 : (c == '\n') = true
        · rw [if_pos h2] at h
          cases hnx : p.scanner.next with
          | ok s =>
            rw [hnx, Parse.bind_ok] at h
            exact ih _ _ h
          | perr m o => rw [hnx, Parse.bind_perr] at h; exact absurd h (by simp)
          | panicked m => rw [hnx, Parse.bind_panicked] at h; exact absurd h (by simp)
          | fuelOut => rw [hnx, Parse.bind_fuelOut] at h; exact absurd h (by simp)
        · rw [if_neg h2] at h
          by_cases h3 : (c == '#') = true
          · rw [if_pos h3] at h
            cases hsc : Parse.skip_comment n p.scanner with
            | ok s =>
              rw [hsc, Parse.bind_ok] at h
              exact ih _ _ h
            | perr m o => rw [hsc, Parse.bind_perr] at h; exact absurd h (by simp)
            | panicked m => rw [hsc, Parse.bind_panicked] at h; exact absurd h (by simp)
            | fuelOut => rw [hsc, Parse.bind_fuelOut] at h; exact absurd h (by simp)
          · rw [if_neg h3] at h
            by_cases h4 : (c == ' ' || c == '\t') = true
            · rw [if_pos h4] at h
              exact absurd h (by simp)
            · rw [if_neg h4] at h
              cases hri : Parse.read_ident n p.scanner with
              | ok ri =>
                rw [hri, Parse.bind_ok] at h
                cases hsp : Parse.skip_spaces n ri.2 with
                | ok s1 =>
                  rw [hsp, Parse.bind_ok] at h
                  by_cases h5 : (ri.1 == "rule") = true
                  · rw [if_pos h5] at h
                    cases hrr : Parse.read_rule n s1 with
                    | ok r =>
                      rw [hrr, Parse.bind_ok, Parse.pure_eq_ok] at h
                      exact absurd h (by simp)
                    | perr m o => rw [hrr, Parse.bind_perr] at h; exact absurd h (by simp)
                    | panicked m => rw [hrr, Parse.bind_panicked] at h; exact absurd h (by simp)
                    | fuelOut => rw [hrr, Parse.bind_fuelOut] at h; exact absurd h (by simp)
                  · rw [if_neg h5] at h
                    by_cases h6 : (ri.1 == "build") = true
                    · rw [if_pos h6] at h
                      cases hrb : Parse.read_build n p.vars s1 with
                      | ok r =>
                        rw [hrb, Parse.bind_ok, Parse.pure_eq_ok] at h
                        exact absurd h (by simp)
                      | perr m o => rw [hrb, Parse.bind_perr] at h; exact absurd h (by simp)
                      | panicked m => rw [hrb, Parse.bind_panicked] at h; exact absurd h (by simp)
                      | fuelOut => rw [hrb, Parse.bind_fuelOut] at h; exact absurd h (by simp)
                    · rw [if_neg h6] at h
                      by_cases h7 : (ri.1 == "default") = true
                      · rw [if_pos h7] at h
                        cases hrd : Parse.read_ident n s1 with
                        | ok r =>
                          rw [hrd, Parse.bind_ok, Parse.pure_eq_ok] at h
                          exact absurd h (by simp)
                        | perr m o => rw [hrd, Parse.bind_perr] at h; exact absurd h (by simp)
                        | panicked m => rw [hrd, Parse.bind_panicked] at h; exact absurd h (by simp)
                        | fuelOut => rw [hrd, Parse.bind_fuelOut] at h; exact absurd h (by simp)
                      · rw [if_neg h7] at h
                        cases hrv : Parse.read_vardef n s1 with
                        | ok rv =>
                          rw [hrv, Parse.bind_ok] at h
                          exact ih _ _ h
                        | perr m o => rw [hrv, Parse.bind_perr] at h; exact absurd h (by simp)
                        | panicked m => rw [hrv, Parse.bind_panicked] at h; exact absurd h (by simp)
                        | fuelOut => rw [hrv, Parse.bind_fuelOut] at h; exact absurd h (by simp)
                | perr m o => rw [hsp, Parse.bind_perr] at h; exact absurd h (by simp)
                | panicked m => rw [hsp, Parse.bind_panicked] at h; exact absurd h (by simp)
                | fuelOut => rw [hsp, Parse.bind_fuelOut] at h; exact absurd h (by simp)
              | perr m o => rw [hri, Parse.bind_perr] at h; exact absurd h (by simp)
              | panicked m => rw [hri, Parse.bind_panicked] at h; exact absurd h (by simp)
              | fuelOut => rw [hri, Parse.bind_fuelOut] at h; exact absurd h (by simp)

theorem Parse.peek_ok (s : Parse.Scanner) (h : s.ofs < s.buf.length) :
    ∃ c, s.peek = .ok c ∧ s.buf[s.ofs]? = some c := by
  unfold Parse.Scanner.peek
  rw [List.getElem?_eq_getElem h]
  exact ⟨_, rfl, rfl⟩

theorem Parse.next_ok (s : Parse.Scanner) (h : s.ofs < s.buf.length) :
    s.next = .ok { s with ofs := s.ofs + 1 } := by
  unfold Parse.Scanner.next
  rw [if_neg]
  simp
  omega

theorem Parse.back_ok (s : Parse.Scanner) (h : 0 < s.ofs) :
    s.back = .ok { s with ofs := s.ofs - 1 } := by
  unfold Parse.Scanner.back
  rw [if_neg]
  simp
  omega

theorem Parse.read_ok (s : Parse.Scanner) (h : s.ofs < s.buf.length) :
    ∃ c, s.read = .ok (c, { s with ofs := s.ofs + 1 }) ∧ s.buf[s.ofs]? = some c := by
  obtain ⟨c, hpk, hget⟩ := Parse.peek_ok s h
  refine ⟨c, ?_, hget⟩
  unfold Parse.Scanner.read
  rw [hpk, Parse.bind_ok, Parse.next_ok s h, Parse.bind_ok]
  rfl

theorem Parse.ofs_succ_lt (s : Parse.Scanner) (c : Char)
    (hlast : s.buf.getLast? = some Parse.nul)
    (hget : s.buf[s.ofs]? = some c) (hne : c ≠ Parse.nul) :
    s.ofs + 1 < s.buf.length := by
  have hlt : s.ofs < s.buf.length := by
    by_contra hge
    rw [List.getElem?_eq_none (by omega)] at hget
    exact Option.noConfusion hget
  by_contra hge
  have hofs : s.ofs = s.buf.length - 1 := by omega
  rw [List.getLast?_eq_getElem?, ← hofs, hget] at hlast
  exact hne (Option.some.injEq _ _ ▸ hlast)

theorem Parse.skip_spaces_total : ∀ (fuel : Nat) (s : Parse.Scanner),
    s.buf.getLast? = some Parse.nul → s.ofs < s.buf.length →
    s.buf.length < fuel + s.ofs →
    ∃ s2, Parse.skip_spaces fuel s = .ok s2 ∧ s2.buf = s.buf ∧ s.ofs ≤ s2.ofs ∧
      s2.ofs < s.buf.length := by
  intro fuel
  induction fuel with
  | zero =>
    intro s _ hofs hfuel
    omega
  | succ n ih =>
    intro s hlast hofs hfuel
    obtain ⟨c, hpk, hget⟩ := Parse.peek_ok s hofs
    simp only [Parse.skip_spaces]
    rw [hpk, Parse.bind_ok]
    by_cases hc : (c == ' ') = true
    · rw [if_pos hc]
      have hne : c ≠ Parse.nul := by
        rw [beq_iff_eq.mp hc]
        decide
      have hlt2 := Parse.ofs_succ_lt s c hlast hget hne
      rw [Parse.next_ok s hofs, Parse.bind_ok]
      obtain ⟨s2, hrun, hbuf, hle, hlt⟩ := ih { s with ofs := s.ofs + 1 }
        (by simpa using hlast) (by simpa using hlt2) (by simp; omega)
      exact ⟨s2, hrun, by simpa using hbuf, by simp at hle; omega, by simpa using hlt⟩
    · rw [if_neg hc]
      exact ⟨s, rfl, rfl, le_refl _, hofs⟩

theorem Parse.skip_comment_total : ∀ (fuel : Nat) (s : Parse.Scanner),
    s.buf.getLast? = some Parse.nul → s.ofs < s.buf.length →
    s.buf.length < fuel + s.ofs →
    ∃ s2, Parse.skip_comment fuel s = .ok s2 ∧ s2.buf = s.buf ∧ s.ofs ≤ s2.ofs ∧
      s2.ofs < s.buf.length ∧ (s.buf[s.ofs]? ≠ some Parse.nul → s.ofs < s2.ofs) := by
  intro fuel
  induction fuel with
  | zero =>
    intro s _ hofs hfuel
    omega
  | succ n ih =>
    intro s hlast hofs hfuel
    obtain ⟨c, hrd, hget⟩ := Parse.read_ok s hofs
    simp only [Parse.skip_comment]
    rw [hrd, Parse.bind_ok]
    by_cases hc : (c == Parse.nul) = true
    · rw [if_pos hc]
      rw [Parse.back_ok _ (by simp)]
      refine ⟨{ s with ofs := s.ofs + 1 - 1 }, rfl, rfl, by simp, by simp; omega, ?_⟩
      intro hne
      exact absurd (beq_iff_eq.mp hc ▸ hget) hne
    · rw [if_neg hc]
      have hne : c ≠ Parse.nul := by
        intro hcc
        rw [hcc] at hc
        simp at hc
      have hlt2 := Parse.ofs_succ_lt s c hlast hget hne
      by_cases hn : (c == '\n') = true
      · rw [if_pos hn]
        exact ⟨_, rfl, rfl, by simp, by simpa using hlt2, fun _ => by simp⟩
      · rw [if_neg hn]
        obtain ⟨s2, hrun, hbuf, hle, hlt, _⟩ := ih { s with ofs := s.ofs + 1 }
          (by simpa using hlast) (by simpa using hlt2) (by simp; omega)
        refine ⟨s2, hrun, by simpa using hbuf, by simp at hle; omega,
          by simpa using hlt, fun _ => by simp at hle; omega⟩

theorem Parse.read_ident_go_total : ∀ (fuel : Nat) (s : Parse.Scanner),
    s.buf.getLast? = some Parse.nul → s.ofs < s.buf.length →
    s.buf.length < fuel + s.ofs →
    ∃ s2, Parse.read_ident_go fuel s = .ok s2 ∧ s2.buf = s.buf ∧ s.ofs ≤ s2.ofs ∧
      s2.ofs < s.buf.length := by
  intro fuel
  induction fuel with
  | zero =>
    intro s _ hofs hfuel
    omega
  | succ n ih =>
    intro s hlast hofs hfuel
    obtain ⟨c, hrd, hget⟩ := Parse.read_ok s hofs
    simp only [Parse.read_ident_go]
    rw [hrd, Parse.bind_ok]
    by_cases hc : (('a' ≤ c && c ≤ 'z') || c == '_') = true
    · rw [if_pos hc]
      have hne : c ≠ Parse.nul := by
        intro hcc
        rw [hcc] at hc
        revert hc
        decide
      have hlt2 := Parse.ofs_succ_lt s c hlast hget hne
      obtain ⟨s2, hrun, hbuf, hle, hlt⟩ := ih { s with ofs := s.ofs + 1 }
        (by simpa using hlast) (by simpa using hlt2) (by simp; omega)
      exact ⟨s2, hrun, by simpa using hbuf, by simp at hle; omega, by simpa using hlt⟩
    · rw [if_neg hc]
      rw [Parse.back_ok _ (by simp)]
      exact ⟨_, rfl, rfl, by simp, by simp; omega⟩

theorem Parse.read_ident_total (fuel : Nat) (s : Parse.Scanner)
    (hlast : s.buf.getLast? = some Parse.nul) (hofs : s.ofs < s.buf.length)
    (hfuel : s.buf.length < fuel + s.ofs) :
    (∃ str s2, Parse.read_ident fuel s = .ok (str, s2) ∧ s2.buf = s.buf ∧
      s.ofs < s2.ofs ∧ s2.ofs < s.buf.length) ∨
    (∃ m o, Parse.read_ident fuel s = .perr m o) := by
  obtain ⟨s2, hrun, hbuf, hle, hlt⟩ := Parse.read_ident_go_total fuel s hlast hofs hfuel
  unfold Parse.read_ident
  rw [hrun, Parse.bind_ok]
  by_cases heq : (s2.ofs == s.ofs) = true
  · rw [if_pos heq]
    exact Or.inr ⟨_, _, rfl⟩
  · rw [if_neg heq]
    have : s2.ofs ≠ s.ofs := by simpa using heq
    exact Or.inl ⟨_, s2, rfl, hbuf, by omega, hlt⟩

theorem Parse.expect_total (ch : Char) (s : Parse.Scanner)
    (hch : ch ≠ Parse.nul)
    (hlast : s.buf.getLast? = some Parse.nul) (hofs : s.ofs < s.buf.length) :
    (∃ s2, Parse.expect ch s = .ok ((), s2) ∧ s2.buf = s.buf ∧
      s.ofs < s2.ofs ∧ s2.ofs < s.buf.length) ∨
    (∃ m o, Parse.expect ch s = .perr m o) := by
  obtain ⟨c, hrd, hget⟩ := Parse.read_ok s hofs
  unfold Parse.expect
  rw [hrd, Parse.bind_ok]
  by_cases hc : (c == ch) = true
  · rw [if_pos hc]
    have hne : c ≠ Parse.nul := by
      rw [beq_iff_eq.mp hc]
      exact hch
    have hlt2 := Parse.ofs_succ_lt s c hlast hget hne
    exact Or.inl ⟨_, rfl, rfl, by simp, by simpa using hlt2⟩
  · rw [if_neg hc]
    rw [Parse.back_ok _ (by simp), Parse.bind_ok]
    exact Or.inr ⟨_, _, rfl⟩

theorem Parse.read_braced_go_total : ∀ (fuel : Nat) (s : Parse.Scanner),
    s.buf.getLast? = some Parse.nul → s.ofs < s.buf.length →
    s.buf.length < fuel + s.ofs →
    (∃ s2, Parse.read_braced_go fuel s = .ok s2 ∧ s2.buf = s.buf ∧ s.ofs < s2.ofs ∧
      s2.ofs < s.buf.length) ∨
    (∃ m o, Parse.read_braced_go fuel s = .perr m o) := by
  intro fuel
  induction fuel with
  | zero =>
    intro s _ hofs hfuel
    omega
  | succ n ih =>
    intro s hlast hofs hfuel
    obtain ⟨c, hrd, hget⟩ := Parse.read_ok s hofs
    simp only [Parse.read_braced_go]
    rw [hrd, Parse.bind_ok]
    by_cases hc : (c == Parse.nul) = true
    · rw [if_pos hc]
      exact Or.inr ⟨_, _, rfl⟩
    · rw [if_neg hc]
      have hne : c ≠ Parse.nul := by
        intro hcc
        rw [hcc] at hc
        simp at hc
      have hlt2 := Parse.ofs_succ_lt s c hlast hget hne
      by_cases hb : (c == Parse.rbrace) = true
      · rw [if_pos hb]
        exact Or.inl ⟨_, rfl, rfl, by simp, by simpa using hlt2⟩
      · rw [if_neg hb]
        rcases ih { s with ofs := s.ofs + 1 }
          (by simpa using hlast) (by simpa using hlt2) (by simp; omega) with
          ⟨s2, hrun, hbuf, hle, hlt⟩ | ⟨m, o, hrun⟩
        · exact Or.inl ⟨s2, hrun, by simpa using hbuf, by simp at hle; omega,
            by simpa using hlt⟩
        · exact Or.inr ⟨m, o, hrun⟩

theorem Parse.read_escape_total (fuel : Nat) (s : Parse.Scanner)
    (hlast : s.buf.getLast? = some Parse.nul) (hofs : s.ofs < s.buf.length)
    (hfuel : s.buf.length < fuel + s.ofs) :
    (∃ part s2, Parse.read_escape fuel s = .ok (part, s2) ∧ s2.buf = s.buf ∧
      s.ofs < s2.ofs ∧ s2.ofs < s.buf.length) ∨
    (∃ m o, Parse.read_escape fuel s = .perr m o) := by
  obtain ⟨c, hpk, hget⟩ := Parse.peek_ok s hofs
  unfold Parse.read_escape
  rw [hpk, Parse.bind_ok]
  by_cases hn : (c == '\n') = true
  · rw [if_pos hn]
    have hne : c ≠ Parse.nul := by
      rw [beq_iff_eq.mp hn]
      decide
    have hlt2 := Parse.ofs_succ_lt s c hlast hget hne
    rw [Parse.next_ok s hofs, Parse.bind_ok]
    obtain ⟨s2, hrun, hbuf, hle, hlt⟩ := Parse.skip_spaces_total fuel { s with ofs := s.ofs + 1 }
      (by simpa using hlast) (by simpa using hlt2) (by simp; omega)
    rw [hrun, Parse.bind_ok]
    exact Or.inl ⟨_, s2, rfl, by simpa using hbuf, by simp at hle; omega, by simpa using hlt⟩
  · rw [if_neg hn]
    by_cases hb : (c == Parse.lbrace) = true
    · rw [if_pos hb]
      have hne : c ≠ Parse.nul := by
        rw [beq_iff_eq.mp hb]
        decide
      have hlt2 := Parse.ofs_succ_lt s c hlast hget hne
      rw [Parse.next_ok s hofs, Parse.bind_ok]
      rcases Parse.read_braced_go_total fuel { s with ofs := s.ofs + 1 }
        (by simpa using hlast) (by simpa using hlt2) (by simp; omega) with
        ⟨s2, hrun, hbuf, hle, hlt⟩ | ⟨m, o, hrun⟩
      · rw [hrun, Parse.bind_ok]
        exact Or.inl ⟨_, s2, rfl, by simpa using hbuf, by simp at hle; omega,
          by simpa using hlt⟩
      · rw [hrun, Parse.bind_perr]
        exact Or.inr ⟨m, o, rfl⟩
    · rw [if_neg hb]
      rcases Parse.read_ident_total fuel s hlast hofs hfuel with
        ⟨str, s2, hrun, hbuf, hle, hlt⟩ | ⟨m, o, hrun⟩
      · rw [hrun, Parse.bind_ok]
        exact Or.inl ⟨_, s2, rfl, hbuf, hle, hlt⟩
      · rw [hrun, Parse.bind_perr]
        exact Or.inr ⟨m, o, rfl⟩

theorem Parse.read_eval_go_total : ∀ (fuel : Nat) (s : Parse.Scanner)
    (litStart : Nat) (parts : Parse.PEvalString),
    s.buf.getLast? = some Parse.nul → s.ofs < s.buf.length →
    s.buf.length < fuel + s.ofs →
    (∃ res s2, Parse.read_eval_go fuel s litStart parts = .ok (res, s2) ∧ s2.buf = s.buf ∧
      s.ofs < s2.ofs ∧ s2.ofs < s.buf.length) ∨
    (∃ m o, Parse.read_eval_go fuel s litStart parts = .perr m o) := by
  intro fuel
  induction fuel with
  | zero =>
    intro s _ _ _ hofs hfuel
    omega
  | succ n ih =>
    intro s litStart parts hlast hofs hfuel
    obtain ⟨c, hrd, hget⟩ := Parse.read_ok s hofs
    simp only [Parse.read_eval_go]
    rw [hrd, Parse.bind_ok]
    by_cases hc : (c == Parse.nul) = true
    · rw [if_pos hc]
      exact Or.inr ⟨_, _, rfl⟩
    · rw [if_neg hc]
      have hne : c ≠ Parse.nul := by
        intro hcc
        rw [hcc] at hc
        simp at hc
      have hlt2 := Parse.ofs_succ_lt s c hlast hget hne
      by_cases hn : (c == '\n') = true
      · rw [if_pos hn]
        exact Or.inl ⟨_, _, rfl, rfl, by simp, by simpa using hlt2⟩
      · rw [if_neg hn]
        by_cases hd : (c == '$') = true
        · rw [if_pos hd]
          rcases Parse.read_escape_total n { s with ofs := s.ofs + 1 }
            (by simpa using hlast) (by simpa using hlt2) (by simp; omega) with
            ⟨part, s2, hrun, hbuf, hle, hlt⟩ | ⟨m, o, hrun⟩
          · rw [hrun, Parse.bind_ok]
            have hbuf2 : s2.buf = s.buf := hbuf
            have hle2 : s.ofs + 1 < s2.ofs := hle
            have hlt2b : s2.ofs < s.buf.length := hlt
            rcases ih s2 s2.ofs (parts ++ (if litStart < s.ofs + 1 - 1 then
                [Parse.PEvalPart.literal (Parse.Scanner.slice { s with ofs := s.ofs + 1 } litStart (s.ofs + 1 - 1))] else []) ++ [part])
              (by rw [hbuf2]; exact hlast) (by rw [hbuf2]; exact hlt2b)
              (by rw [hbuf2]; omega) with
              ⟨res, s3, hrun2, hbuf3, hle3, hlt3⟩ | ⟨m, o, hrun2⟩
            · refine Or.inl ⟨res, s3, hrun2, hbuf3.trans hbuf2, by omega, ?_⟩
              rw [hbuf2] at hlt3
              exact hlt3
            · exact Or.inr ⟨m, o, hrun2⟩
          · rw [hrun, Parse.bind_perr]
            exact Or.inr ⟨m, o, rfl⟩
        · rw [if_neg hd]
          rcases ih { s with ofs := s.ofs + 1 } litStart parts
            (by simpa using hlast) (by simpa using hlt2) (by simp; omega) with
            ⟨res, s3, hrun2, hbuf2, hle2, hlt2b⟩ | ⟨m, o, hrun2⟩
          · exact Or.inl ⟨res, s3, hrun2, by simpa using hbuf2, by simp at hle2; omega,
              by simpa using hlt2b⟩
          · exact Or.inr ⟨m, o, hrun2⟩

theorem Parse.read_eval_total (fuel : Nat) (s : Parse.Scanner)
    (hlast : s.buf.getLast? = some Parse.nul) (hofs : s.ofs < s.buf.length)
    (hfuel : s.buf.length < fuel + s.ofs) :
    (∃ res s2, Parse.read_eval fuel s = .ok (res, s2) ∧ s2.buf = s.buf ∧
      s.ofs < s2.ofs ∧ s2.ofs < s.buf.length) ∨
    (∃ m o, Parse.read_eval fuel s = .perr m o) := by
  unfold Parse.read_eval
  exact Parse.read_eval_go_total fuel s s.ofs [] hlast hofs hfuel

theorem Parse.read_vardef_total (fuel : Nat) (s : Parse.Scanner)
    (hlast : s.buf.getLast? = some Parse.nul) (hofs : s.ofs < s.buf.length)
    (hfuel : s.buf.length < fuel + s.ofs) :
    (∃ res s2, Parse.read_vardef fuel s = .ok (res, s2) ∧ s2.buf = s.buf ∧
      s.ofs < s2.ofs ∧ s2.ofs < s.buf.length) ∨
    (∃ m o, Parse.read_vardef fuel s = .perr m o) := by
  unfold Parse.read_vardef
  obtain ⟨s1, hrun1, hbuf1, hle1, hlt1⟩ := Parse.skip_spaces_total fuel s hlast hofs hfuel
  rw [hrun1, Parse.bind_ok]
  rcases Parse.expect_total '=' s1 (by decide) (by rw [hbuf1]; exact hlast)
      (by rw [hbuf1]; exact hlt1) with
    ⟨s2, hrun2, hbuf2, hle2, hlt2⟩ | ⟨m, o, hrun2⟩
  · rw [hrun2, Parse.bind_ok]
    have hbuf2b : s2.buf = s.buf := hbuf2.trans hbuf1
    have hlt2b : s2.ofs < s.buf.length := by rw [hbuf1] at hlt2; exact hlt2
    obtain ⟨s3, hrun3, hbuf3, hle3, hlt3⟩ := Parse.skip_spaces_total fuel s2
      (by rw [hbuf2b]; exact hlast) (by rw [hbuf2b]; exact hlt2b)
      (by rw [hbuf2b]; omega)
    rw [hrun3, Parse.bind_ok]
    have hbuf3b : s3.buf = s.buf := hbuf3.trans hbuf2b
    have hlt3b : s3.ofs < s.buf.length := by rw [hbuf2b] at hlt3; exact hlt3
    rcases Parse.read_eval_total fuel s3 (by rw [hbuf3b]; exact hlast)
      (by rw [hbuf3b]; exact hlt3b) (by rw [hbuf3b]; omega) with
      ⟨res, s4, hrun4, hbuf4, hle4, hlt4⟩ | ⟨m, o, hrun4⟩
    · refine Or.inl ⟨res, s4, hrun4, hbuf4.trans hbuf3b, by omega, ?_⟩
      rw [hbuf3b] at hlt4
      exact hlt4
    · exact Or.inr ⟨m, o, hrun4⟩
  · rw [hrun2, Parse.bind_perr]
    exact Or.inr ⟨m, o, rfl⟩

theorem Parse.read_scoped_vars_total : ∀ (fuel : Nat) (s : Parse.Scanner)
    (vars : List (String × Parse.PEvalString)),
    s.buf.getLast? = some Parse.nul → s.ofs < s.buf.length →
    s.buf.length + 2 ≤ fuel + s.ofs →
    (∃ res s2, Parse.read_scoped_vars fuel s vars = .ok (res, s2) ∧ s2.buf = s.buf ∧
      s.ofs ≤ s2.ofs ∧ s2.ofs < s.buf.length) ∨
    (∃ m o, Parse.read_scoped_vars fuel s vars = .perr m o) := by
  intro fuel
  induction fuel with
  | zero =>
    intro s _ _ hofs hfuel
    omega
  | succ n ih =>
    intro s vars hlast hofs hfuel
    obtain ⟨c, hpk, hget⟩ := Parse.peek_ok s hofs
    simp only [Parse.read_scoped_vars]
    rw [hpk, Parse.bind_ok]
    by_cases hc : (c == ' ') = true
    · rw [if_pos hc]
      obtain ⟨s1, hrun1, hbuf1, hle1, hlt1⟩ := Parse.skip_spaces_total n s hlast hofs
        (by omega)
      rw [hrun1, Parse.bind_ok]
      rcases Parse.read_ident_total n s1 (by rw [hbuf1]; exact hlast)
          (by rw [hbuf1]; exact hlt1) (by rw [hbuf1]; omega) with
        ⟨name, s2, hrun2, hbuf2, hle2, hlt2⟩ | ⟨m, o, hrun2⟩
      · rw [hrun2, Parse.bind_ok]
        have hbuf2b : s2.buf = s.buf := hbuf2.trans hbuf1
        have hlt2b : s2.ofs < s.buf.length := by rw [hbuf1] at hlt2; exact hlt2
        obtain ⟨s3, hrun3, hbuf3, hle3, hlt3⟩ := Parse.skip_spaces_total n s2
          (by rw [hbuf2b]; exact hlast) (by rw [hbuf2b]; exact hlt2b)
          (by rw [hbuf2b]; omega)
        rw [hrun3, Parse.bind_ok]
        have hbuf3b : s3.buf = s.buf := hbuf3.trans hbuf2b
        have hlt3b : s3.ofs < s.buf.length := by rw [hbuf2b] at hlt3; exact hlt3
        rcases Parse.read_vardef_total n s3 (by rw [hbuf3b]; exact hlast)
            (by rw [hbuf3b]; exact hlt3b)
            (by rw [hbuf3b]; omega) with
          ⟨val, s4, hrun4, hbuf4, hle4, hlt4⟩ | ⟨m, o, hrun4⟩
        · rw [hrun4, Parse.bind_ok]
          have hbuf4b : s4.buf = s.buf := hbuf4.trans hbuf3b
          have hlt4b : s4.ofs < s.buf.length := by rw [hbuf3b] at hlt4; exact hlt4
          rcases ih s4 (vars ++ [(name, val)]) (by rw [hbuf4b]; exact hlast)
              (by rw [hbuf4b]; exact hlt4b)
              (by rw [hbuf4b]; omega) with
            ⟨res, s5, hrun5, hbuf5, hle5, hlt5⟩ | ⟨m, o, hrun5⟩
          · refine Or.inl ⟨res, s5, hrun5, hbuf5.trans hbuf4b, by omega, ?_⟩
            rw [hbuf4b] at hlt5
            exact hlt5
          · exact Or.inr ⟨m, o, hrun5⟩
        · rw [hrun4, Parse.bind_perr]
          exact Or.inr ⟨m, o, rfl⟩
      · rw [hrun2, Parse.bind_perr]
        exact Or.inr ⟨m, o, rfl⟩
    · rw [if_neg hc]
      exact Or.inl ⟨vars, s, rfl, rfl, le_refl _, hofs⟩

theorem Parse.read_rule_total (fuel : Nat) (s : Parse.Scanner)
    (hlast : s.buf.getLast? = some Parse.nul) (hofs : s.ofs < s.buf.length)
    (hfuel : s.buf.length < fuel + s.ofs) :
    (∃ res s2, Parse.read_rule fuel s = .ok (res, s2) ∧ s2.buf = s.buf ∧
      s.ofs ≤ s2.ofs ∧ s2.ofs < s.buf.length) ∨
    (∃ m o, Parse.read_rule fuel s = .perr m o) := by
  unfold Parse.read_rule
  rcases Parse.read_ident_total fuel s hlast hofs hfuel with
    ⟨name, s1, hrun1, hbuf1, hle1, hlt1⟩ | ⟨m, o, hrun1⟩
  · rw [hrun1, Parse.bind_ok]
    rcases Parse.expect_total '\n' s1 (by decide) (by rw [hbuf1]; exact hlast)
        (by rw [hbuf1]; exact hlt1) with
      ⟨s2, hrun2, hbuf2, hle2, hlt2⟩ | ⟨m, o, hrun2⟩
    · rw [hrun2, Parse.bind_ok]
      have hbuf2b : s2.buf = s.buf := hbuf2.trans hbuf1
      have hlt2b : s2.ofs < s.buf.length := by rw [hbuf1] at hlt2; exact hlt2
      rcases Parse.read_scoped_vars_total fuel s2 [] (by rw [hbuf2b]; exact hlast)
          (by rw [hbuf2b]; exact hlt2b)
          (by rw [hbuf2b]; omega) with
        ⟨vars, s3, hrun3, hbuf3, hle3, hlt3⟩ | ⟨m, o, hrun3⟩
      · rw [hrun3, Parse.bind_ok]
        refine Or.inl ⟨_, s3, rfl, hbuf3.trans hbuf2b, by omega, ?_⟩
        rw [hbuf2b] at hlt3
        exact hlt3
      · rw [hrun3, Parse.bind_perr]
        exact Or.inr ⟨m, o, rfl⟩
    · rw [hrun2, Parse.bind_perr]
      exact Or.inr ⟨m, o, rfl⟩
  · rw [hrun1, Parse.bind_perr]
    exact Or.inr ⟨m, o, rfl⟩

theorem Parse.read_path_go_total : ∀ (fuel : Nat) (vars : List (String × String))
    (s : Parse.Scanner) (path : String),
    s.buf.getLast? = some Parse.nul → s.ofs < s.buf.length →
    s.buf.length < fuel + s.ofs →
    (∃ res s2, Parse.read_path_go fuel vars s path = .ok (res, s2) ∧ s2.buf = s.buf ∧
      s.ofs ≤ s2.ofs ∧ s2.ofs < s.buf.length ∧ (s2.ofs = s.ofs → res = path)) ∨
    (∃ m o, Parse.read_path_go fuel vars s path = .perr m o) := by
  intro fuel
  induction fuel with
  | zero =>
    intro vars s _ _ hofs hfuel
    omega
  | succ n ih =>
    intro vars s path hlast hofs hfuel
    obtain ⟨c, hrd, hget⟩ := Parse.read_ok s hofs
    simp only [Parse.read_path_go]
    rw [hrd, Parse.bind_ok]
    by_cases hc : (c == Parse.nul) = true
    · rw [if_pos hc]
      rw [Parse.back_ok _ (by simp), Parse.bind_ok]
      exact Or.inr ⟨_, _, rfl⟩
    · rw [if_neg hc]
      have hne : c ≠ Parse.nul := by
        intro hcc
        rw [hcc] at hc
        simp at hc
      have hlt2 := Parse.ofs_succ_lt s c hlast hget hne
      by_cases hd : (c == '$') = true
      · rw [if_pos hd]
        rcases Parse.read_escape_total n { s with ofs := s.ofs + 1 }
          (by simpa using hlast) (by simpa using hlt2) (by simp; omega) with
          ⟨part, s1, hrun1, hbuf1, hle1, hlt1⟩ | ⟨m, o, hrun1⟩
        · rw [hrun1, Parse.bind_ok]
          have hbuf1b : s1.buf = s.buf := hbuf1
          have hle1b : s.ofs + 1 < s1.ofs := hle1
          have hlt1b : s1.ofs < s.buf.length := hlt1
          have step : ∀ path2 : String,
              (∃ res s2, Parse.read_path_go n vars s1 path2 = .ok (res, s2) ∧
                s2.buf = s.buf ∧ s.ofs ≤ s2.ofs ∧ s2.ofs < s.buf.length ∧
                (s2.ofs = s.ofs → res = path)) ∨
              (∃ m o, Parse.read_path_go n vars s1 path2 = .perr m o) := by
            intro path2
            rcases ih vars s1 path2 (by rw [hbuf1b]; exact hlast)
                (by rw [hbuf1b]; exact hlt1b) (by rw [hbuf1b]; omega) with
              ⟨res, s2, hrun2, hbuf2, hle2, hlt2b, _⟩ | ⟨m, o, hrun2⟩
            · refine Or.inl ⟨res, s2, hrun2, hbuf2.trans hbuf1b, by omega, ?_, ?_⟩
              · rw [hbuf1b] at hlt2b
                exact hlt2b
              · intro hcontra
                omega
            · exact Or.inr ⟨m, o, hrun2⟩
          cases part with
          | literal l => exact step (path ++ l)
          | varRef v =>
            simp only []
            rcases hlk : List.lookup v vars with _ | val
            · exact step path
            · exact step (path ++ val)
        · rw [hrun1, Parse.bind_perr]
          exact Or.inr ⟨m, o, rfl⟩
      · rw [if_neg hd]
        by_cases ht : (c == ':' || c == '|' || c == ' ' || c == '\n') = true
        · rw [if_pos ht]
          rw [Parse.back_ok _ (by simp), Parse.bind_ok]
          exact Or.inl ⟨path, _, rfl, rfl, by simp, by simp; omega, fun _ => rfl⟩
        · rw [if_neg ht]
          rcases ih vars { s with ofs := s.ofs + 1 } (path.push c)
              (by simpa using hlast) (by simpa using hlt2) (by simp; omega) with
            ⟨res, s2, hrun2, hbuf2, hle2, hlt2b, _⟩ | ⟨m, o, hrun2⟩
          · refine Or.inl ⟨res, s2, hrun2, by simpa using hbuf2, by simp at hle2; omega,
              by simpa using hlt2b, ?_⟩
            intro hcontra
            simp at hle2
            omega
          · exact Or.inr ⟨m, o, hrun2⟩

theorem Parse.read_path_total (fuel : Nat) (vars : List (String × String))
    (s : Parse.Scanner)
    (hlast : s.buf.getLast? = some Parse.nul) (hofs : s.ofs < s.buf.length)
    (hfuel : s.buf.length < fuel + s.ofs) :
    (∃ res s2, Parse.read_path fuel vars s = .ok (res, s2) ∧ s2.buf = s.buf ∧
      s.ofs ≤ s2.ofs ∧ s2.ofs < s.buf.length ∧
      (∀ str, res = some str → s.ofs < s2.ofs)) ∨
    (∃ m o, Parse.read_path fuel vars s = .perr m o) := by
  unfold Parse.read_path
  rcases Parse.read_path_go_total fuel vars s "" hlast hofs hfuel with
    ⟨res, s2, hrun, hbuf, hle, hlt, hstay⟩ | ⟨m, o, hrun⟩
  · rw [hrun, Parse.bind_ok]
    by_cases he : (res == "") = true
    · rw [if_pos he]
      exact Or.inl ⟨none, s2, rfl, hbuf, hle, hlt, fun str h => Option.noConfusion h⟩
    · rw [if_neg he]
      refine Or.inl ⟨some res, s2, rfl, hbuf, hle, hlt, fun str _ => ?_⟩
      rcases Nat.lt_or_ge s.ofs s2.ofs with h | h
      · exact h
      · have heq : s2.ofs = s.ofs := by omega
        exact absurd (beq_iff_eq.mpr (hstay heq)) (by simpa using he)
  · rw [hrun, Parse.bind_perr]
    exact Or.inr ⟨m, o, rfl⟩


theorem Parse.read_build_outs_total : ∀ (fuel : Nat) (vars : List (String × String))
    (s : Parse.Scanner) (outs : List String),
    s.buf.getLast? = some Parse.nul → s.ofs < s.buf.length →
    s.buf.length + 2 ≤ fuel + s.ofs →
    (∃ res s2, Parse.read_build_outs fuel vars s outs = .ok (res, s2) ∧ s2.buf = s.buf ∧
      s.ofs ≤ s2.ofs ∧ s2.ofs < s.buf.length) ∨
    (∃ m o, Parse.read_build_outs fuel vars s outs = .perr m o) := by
  intro fuel
  induction fuel with
  | zero =>
    intro vars s _ _ hofs hfuel
    omega
  | succ n ih =>
    intro vars s outs hlast hofs hfuel
    simp only [Parse.read_build_outs]
    obtain ⟨s1, hrun1, hbuf1, hle1, hlt1⟩ := Parse.skip_spaces_total n s hlast hofs
      (by omega)
    rw [hrun1, Parse.bind_ok]
    rcases Parse.read_path_total n vars s1 (by rw [hbuf1]; exact hlast)
        (by rw [hbuf1]; exact hlt1) (by rw [hbuf1]; omega) with
      ⟨res, s2, hrun2, hbuf2, hle2, hlt2, hsome⟩ | ⟨m, o, hrun2⟩
    · rw [hrun2, Parse.bind_ok]
      have hbuf2b : s2.buf = s.buf := hbuf2.trans hbuf1
      have hlt2b : s2.ofs < s.buf.length := by rw [hbuf1] at hlt2; exact hlt2
      rcases res with _ | path
      · exact Or.inl ⟨outs, s2, rfl, hbuf2b, by omega, hlt2b⟩
      · have hstrict : s1.ofs < s2.ofs := hsome path rfl
        rcases ih vars s2 (outs ++ [path]) (by rw [hbuf2b]; exact hlast)
            (by rw [hbuf2b]; exact hlt2b) (by rw [hbuf2b]; omega) with
          ⟨res2, s3, hrun3, hbuf3, hle3, hlt3⟩ | ⟨m, o, hrun3⟩
        · refine Or.inl ⟨res2, s3, hrun3, hbuf3.trans hbuf2b, by omega, ?_⟩
          rw [hbuf2b] at hlt3
          exact hlt3
        · exact Or.inr ⟨m, o, hrun3⟩
    · rw [hrun2, Parse.bind_perr]
      exact Or.inr ⟨m, o, rfl⟩

theorem Parse.read_build_ins_total : ∀ (fuel : Nat) (vars : List (String × String))
    (s : Parse.Scanner) (ins : List String),
    s.buf.getLast? = some Parse.nul → s.ofs < s.buf.length →
    s.buf.length + 2 ≤ fuel + s.ofs →
    (∃ res s2, Parse.read_build_ins fuel vars s ins = .ok (res, s2) ∧ s2.buf = s.buf ∧
      s.ofs ≤ s2.ofs ∧ s2.ofs < s.buf.length) ∨
    (∃ m o, Parse.read_build_ins fuel vars s ins = .perr m o) := by
  intro fuel
  induction fuel with
  | zero =>
    intro vars s _ _ hofs hfuel
    omega
  | succ n ih =>
    intro vars s ins hlast hofs hfuel
    simp only [Parse.read_build_ins]
    obtain ⟨s1, hrun1, hbuf1, hle1, hlt1⟩ := Parse.skip_spaces_total n s hlast hofs
      (by omega)
    rw [hrun1, Parse.bind_ok]
    have hlast1 : s1.buf.getLast? = some Parse.nul := by rw [hbuf1]; exact hlast
    have hlt1b : s1.ofs < s1.buf.length := by rw [hbuf1]; exact hlt1
    obtain ⟨c, hpk, hget⟩ := Parse.peek_ok s1 hlt1b
    rw [hpk, Parse.bind_ok]
    have hbar : ∀ s2 : Parse.Scanner, s2.buf = s.buf → s.ofs ≤ s2.ofs →
        s2.ofs < s.buf.length →
        (∃ res s3, (do
            let r ← Parse.read_path n vars s2
            match r.1 with
            | some path => Parse.read_build_ins n vars r.2 (ins ++ [path])
            | none => pure (ins, r.2) : Parse.PRes (List String × Parse.Scanner)) =
            .ok (res, s3) ∧ s3.buf = s.buf ∧ s.ofs ≤ s3.ofs ∧
            s3.ofs < s.buf.length) ∨
        (∃ m o, (do
            let r ← Parse.read_path n vars s2
            match r.1 with
            | some path => Parse.read_build_ins n vars r.2 (ins ++ [path])
            | none => pure (ins, r.2) : Parse.PRes (List String × Parse.Scanner)) =
            .perr m o) := by
      intro s2 hbuf2 hle2 hlt2
      rcases Parse.read_path_total n vars s2 (by rw [hbuf2]; exact hlast)
          (by rw [hbuf2]; exact hlt2) (by rw [hbuf2]; omega) with
        ⟨res, s3, hrun3, hbuf3, hle3, hlt3, hsome⟩ | ⟨m, o, hrun3⟩
      · rw [hrun3, Parse.bind_ok]
        have hbuf3b : s3.buf = s.buf := hbuf3.trans hbuf2
        have hlt3b : s3.ofs < s.buf.length := by rw [hbuf2] at hlt3; exact hlt3
        rcases res with _ | path
        · exact Or.inl ⟨ins, s3, rfl, hbuf3b, by omega, hlt3b⟩
        · have hstrict : s2.ofs < s3.ofs := hsome path rfl
          rcases ih vars s3 (ins ++ [path]) (by rw [hbuf3b]; exact hlast)
              (by rw [hbuf3b]; exact hlt3b) (by rw [hbuf3b]; omega) with
            ⟨res2, s4, hrun4, hbuf4, hle4, hlt4⟩ | ⟨m, o, hrun4⟩
          · refine Or.inl ⟨res2, s4, hrun4, hbuf4.trans hbuf3b, by omega, ?_⟩
            rw [hbuf3b] at hlt4
            exact hlt4
          · exact Or.inr ⟨m, o, hrun4⟩
      · rw [hrun3, Parse.bind_perr]
        exact Or.inr ⟨m, o, rfl⟩
    by_cases hb : (c == '|') = true
    · rw [if_pos hb]
      have hne : c ≠ Parse.nul := by
        rw [beq_iff_eq.mp hb]
        decide
      have hlt1c : s1.ofs + 1 < s1.buf.length := Parse.ofs_succ_lt s1 c hlast1 hget hne
      rw [Parse.next_ok s1 hlt1b, Parse.bind_ok]
      obtain ⟨c2, hpk2, hget2⟩ := Parse.peek_ok { s1 with ofs := s1.ofs + 1 }
        (by simpa using hlt1c)
      rw [hpk2, Parse.bind_ok]
      by_cases hb2 : (c2 == '|') = true
      · rw [if_pos hb2]
        have hne2 : c2 ≠ Parse.nul := by
          rw [beq_iff_eq.mp hb2]
          decide
        have hlt1d : s1.ofs + 1 + 1 < s1.buf.length := by
          have := Parse.ofs_succ_lt { s1 with ofs := s1.ofs + 1 } c2
            (by simpa using hlast1) hget2 hne2
          simpa using this
        rw [Parse.next_ok _ (by simpa using hlt1c), Parse.bind_ok]
        obtain ⟨sb, hrunb, hbufb, hleb, hltb⟩ := Parse.skip_spaces_total n
          { s1 with ofs := s1.ofs + 1 + 1 } (by simpa using hlast1)
          (by simpa using hlt1d) (by simp; rw [hbuf1]; omega)
        rw [hrunb, Parse.bind_ok]
        have hbufbb : sb.buf = s.buf := by
          have : sb.buf = s1.buf := hbufb
          rw [this, hbuf1]
        have hlebb : s.ofs ≤ sb.ofs := by
          have : s1.ofs + 1 + 1 ≤ sb.ofs := by simpa using hleb
          omega
        have hltbb : sb.ofs < s.buf.length := by
          have : sb.ofs < s1.buf.length := by simpa using hltb
          rw [hbuf1] at this
          exact this
        exact hbar sb hbufbb hlebb hltbb
      · rw [if_neg hb2]
        rw [Parse.pure_eq_ok, Parse.bind_ok]
        obtain ⟨sb, hrunb, hbufb, hleb, hltb⟩ := Parse.skip_spaces_total n
          { s1 with ofs := s1.ofs + 1 } (by simpa using hlast1)
          (by simpa using hlt1c) (by simp; rw [hbuf1]; omega)
        rw [hrunb, Parse.bind_ok]
        have hbufbb : sb.buf = s.buf := by
          have : sb.buf = s1.buf := hbufb
          rw [this, hbuf1]
        have hlebb : s.ofs ≤ sb.ofs := by
          have : s1.ofs + 1 ≤ sb.ofs := by simpa using hleb
          omega
        have hltbb : sb.ofs < s.buf.length := by
          have : sb.ofs < s1.buf.length := by simpa using hltb
          rw [hbuf1] at this
          exact this
        exact hbar sb hbufbb hlebb hltbb
    · rw [if_neg hb]
      rw [Parse.pure_eq_ok, Parse.bind_ok]
      exact hbar s1 hbuf1 hle1 hlt1


theorem Parse.read_build_total (fuel : Nat) (vars : List (String × String))
    (s : Parse.Scanner)
    (hlast : s.buf.getLast? = some Parse.nul) (hofs : s.ofs < s.buf.length)
    (hfuel : s.buf.length + 2 ≤ fuel + s.ofs) :
    (∃ res s2, Parse.read_build fuel vars s = .ok (res, s2) ∧ s2.buf = s.buf ∧
      s.ofs ≤ s2.ofs ∧ s2.ofs < s.buf.length) ∨
    (∃ m o, Parse.read_build fuel vars s = .perr m o) := by
  unfold Parse.read_build
  rcases Parse.read_build_outs_total fuel vars s [] hlast hofs hfuel with
    ⟨outs, sa, hruna, hbufa, hlea, hlta⟩ | ⟨m, o, hruna⟩
  · rw [hruna, Parse.bind_ok]
    obtain ⟨sb, hrunb, hbufb, hleb, hltb⟩ := Parse.skip_spaces_total fuel sa
      (by rw [hbufa]; exact hlast) (by rw [hbufa]; exact hlta) (by rw [hbufa]; omega)
    rw [hrunb, Parse.bind_ok]
    have hbufbb : sb.buf = s.buf := hbufb.trans hbufa
    have hltbb : sb.ofs < s.buf.length := by rw [hbufa] at hltb; exact hltb
    rcases Parse.expect_total ':' sb (by decide) (by rw [hbufbb]; exact hlast)
        (by rw [hbufbb]; exact hltbb) with
      ⟨sc, hrunc, hbufc, hlec, hltc⟩ | ⟨m, o, hrunc⟩
    · rw [hrunc, Parse.bind_ok]
      have hbufcc : sc.buf = s.buf := hbufc.trans hbufbb
      have hltcc : sc.ofs < s.buf.length := by rw [hbufbb] at hltc; exact hltc
      obtain ⟨sd, hrund, hbufd, hled, hltd⟩ := Parse.skip_spaces_total fuel sc
        (by rw [hbufcc]; exact hlast) (by rw [hbufcc]; exact hltcc)
        (by rw [hbufcc]; omega)
      rw [hrund, Parse.bind_ok]
      have hbufdd : sd.buf = s.buf := hbufd.trans hbufcc
      have hltdd : sd.ofs < s.buf.length := by rw [hbufcc] at hltd; exact hltd
      rcases Parse.read_ident_total fuel sd (by rw [hbufdd]; exact hlast)
          (by rw [hbufdd]; exact hltdd) (by rw [hbufdd]; omega) with
        ⟨rule, se, hrune, hbufe, hlee, hlte⟩ | ⟨m, o, hrune⟩
      · rw [hrune, Parse.bind_ok]
        have hbufee : se.buf = s.buf := hbufe.trans hbufdd
        have hltee : se.ofs < s.buf.length := by rw [hbufdd] at hlte; exact hlte
        rcases Parse.read_build_ins_total fuel vars se [] (by rw [hbufee]; exact hlast)
            (by rw [hbufee]; exact hltee) (by rw [hbufee]; omega) with
          ⟨ins, sf, hrunf, hbuff, hlef, hltf⟩ | ⟨m, o, hrunf⟩
        · rw [hrunf, Parse.bind_ok]
          have hbufff : sf.buf = s.buf := hbuff.trans hbufee
          have hltff : sf.ofs < s.buf.length := by rw [hbufee] at hltf; exact hltf
          rcases Parse.expect_total '\n' sf (by decide) (by rw [hbufff]; exact hlast)
              (by rw [hbufff]; exact hltff) with
            ⟨sg, hrung, hbufg, hleg, hltg⟩ | ⟨m, o, hrung⟩
          · rw [hrung, Parse.bind_ok]
            have hbufgg : sg.buf = s.buf := hbufg.trans hbufff
            have hltgg : sg.ofs < s.buf.length := by rw [hbufff] at hltg; exact hltg
            rcases Parse.read_scoped_vars_total fuel sg [] (by rw [hbufgg]; exact hlast)
                (by rw [hbufgg]; exact hltgg) (by rw [hbufgg]; omega) with
              ⟨svars, sh, hrunh, hbufh, hleh, hlth⟩ | ⟨m, o, hrunh⟩
            · rw [hrunh, Parse.bind_ok]
              refine Or.inl ⟨_, sh, rfl, hbufh.trans hbufgg, ?_, ?_⟩
              · omega
              · rw [hbufgg] at hlth
                exact hlth
            · rw [hrunh, Parse.bind_perr]
              exact Or.inr ⟨m, o, rfl⟩
          · rw [hrung, Parse.bind_perr]
            exact Or.inr ⟨m, o, rfl⟩
        · rw [hrunf, Parse.bind_perr]
          exact Or.inr ⟨m, o, rfl⟩
      · rw [hrune, Parse.bind_perr]
        exact Or.inr ⟨m, o, rfl⟩
    · rw [hrunc, Parse.bind_perr]
      exact Or.inr ⟨m, o, rfl⟩
  · rw [hruna, Parse.bind_perr]
    exact Or.inr ⟨m, o, rfl⟩


theorem Parse.parser_read_total : ∀ (fuel : Nat) (p : Parse.Parser),
    p.scanner.buf.getLast? = some Parse.nul →
    p.scanner.ofs < p.scanner.buf.length →
    p.scanner.buf.length + 2 ≤ fuel + p.scanner.ofs →
    (∃ res q, Parse.Parser.read fuel p = .ok (res, q)) ∨
    (∃ m o, Parse.Parser.read fuel p = .perr m o) := by
  intro fuel
  induction fuel with
  | zero =>
    intro p _ hofs hfuel
    omega
  | succ n ih =>
    intro p hlast hofs hfuel
    obtain ⟨c, hpk, hget⟩ := Parse.peek_ok p.scanner hofs
    simp only [Parse.Parser.read]
    rw [hpk, Parse.bind_ok]
    by_cases h0 : (c == Parse.nul) = true
    · rw [if_pos h0]
      exact Or.inl ⟨none, p, rfl⟩
    · rw [if_neg h0]
      have hne : c ≠ Parse.nul := by
        intro hcc
        rw [hcc] at h0
        simp at h0
      have hsucc := Parse.ofs_succ_lt p.scanner c hlast hget hne
      by_cases h1 : (c == '\n') = true
      · rw [if_pos h1]
        rw [Parse.next_ok p.scanner hofs, Parse.bind_ok]
        exact ih { p with scanner := { p.scanner with ofs := p.scanner.ofs + 1 } }
          (by simpa using hlast) (by simpa using hsucc) (by simp; omega)
      · rw [if_neg h1]
        by_cases h2 : (c == '#') = true
        · rw [if_pos h2]
          obtain ⟨sa, hruna, hbufa, hlea, hlta, hstricta⟩ :=
            Parse.skip_comment_total n p.scanner hlast hofs (by omega)
          rw [hruna, Parse.bind_ok]
          have hst : p.scanner.ofs < sa.ofs := by
            refine hstricta ?_
            rw [hget]
            intro hcc
            exact hne (Option.some.injEq _ _ ▸ hcc)
          exact ih { p with scanner := sa } (by simpa [hbufa] using hlast)
            (by simpa [hbufa] using hlta) (by simp [hbufa]; omega)
        · rw [if_neg h2]
          by_cases h3 : (c == ' ' || c == '\t') = true
          · rw [if_pos h3]
            exact Or.inr ⟨_, _, rfl⟩
          · rw [if_neg h3]
            rcases Parse.read_ident_total n p.scanner hlast hofs (by omega) with
              ⟨name, sa, hruna, hbufa, hlea, hlta⟩ | ⟨m, o, hruna⟩
            · rw [hruna, Parse.bind_ok]
              obtain ⟨sb, hrunb, hbufb, hleb, hltb⟩ := Parse.skip_spaces_total n sa
                (by rw [hbufa]; exact hlast) (by rw [hbufa]; exact hlta)
                (by rw [hbufa]; omega)
              rw [hrunb, Parse.bind_ok]
              have hbufbb : sb.buf = p.scanner.buf := hbufb.trans hbufa
              have hltbb : sb.ofs < p.scanner.buf.length := by
                rw [hbufa] at hltb
                exact hltb
              by_cases hr : (name == "rule") = true
              · rw [if_pos hr]
                rcases Parse.read_rule_total n sb (by rw [hbufbb]; exact hlast)
                    (by rw [hbufbb]; exact hltbb) (by rw [hbufbb]; omega) with
                  ⟨res, sc, hrunc, _, _, _⟩ | ⟨m, o, hrunc⟩
                · rw [hrunc, Parse.bind_ok]
                  exact Or.inl ⟨_, _, rfl⟩
                · rw [hrunc, Parse.bind_perr]
                  exact Or.inr ⟨m, o, rfl⟩
              · rw [if_neg hr]
                by_cases hb : (name == "build") = true
                · rw [if_pos hb]
                  rcases Parse.read_build_total n p.vars sb
                      (by rw [hbufbb]; exact hlast) (by rw [hbufbb]; exact hltbb)
                      (by rw [hbufbb]; omega) with
                    ⟨res, sc, hrunc, _, _, _⟩ | ⟨m, o, hrunc⟩
                  · rw [hrunc, Parse.bind_ok]
                    exact Or.inl ⟨_, _, rfl⟩
                  · rw [hrunc, Parse.bind_perr]
                    exact Or.inr ⟨m, o, rfl⟩
                · rw [if_neg hb]
                  by_cases hd : (name == "default") = true
                  · rw [if_pos hd]
                    rcases Parse.read_ident_total n sb (by rw [hbufbb]; exact hlast)
                        (by rw [hbufbb]; exact hltbb) (by rw [hbufbb]; omega) with
                      ⟨res, sc, hrunc, _, _, _⟩ | ⟨m, o, hrunc⟩
                    · rw [hrunc, Parse.bind_ok]
                      exact Or.inl ⟨_, _, rfl⟩
                    · rw [hrunc, Parse.bind_perr]
                      exact Or.inr ⟨m, o, rfl⟩
                  · rw [if_neg hd]
                    rcases Parse.read_vardef_total n sb (by rw [hbufbb]; exact hlast)
                        (by rw [hbufbb]; exact hltbb) (by rw [hbufbb]; omega) with
                      ⟨res, sc, hrunc, hbufc, hlec, hltc⟩ | ⟨m, o, hrunc⟩
                    · rw [hrunc, Parse.bind_ok]
                      have hbufcc : sc.buf = p.scanner.buf := hbufc.trans hbufbb
                      have hltcc : sc.ofs < p.scanner.buf.length := by
                        rw [hbufbb] at hltc
                        exact hltc
                      have hstr : p.scanner.ofs + 1 < sc.ofs := by omega
                      exact ih { scanner := sc, vars := _ }
                        (by simpa [hbufcc] using hlast)
                        (by simpa [hbufcc] using hltcc)
                        (by simp [hbufcc]; omega)
                    · rw [hrunc, Parse.bind_perr]
                      exact Or.inr ⟨m, o, rfl⟩
            · rw [hruna, Parse.bind_perr]
              exact Or.inr ⟨m, o, rfl⟩

/-- Claim C10: `Scanner::peek` past the end of the buffer is a panic (an
out-of-bounds index), never an EOF result; `Parser::read` returns
no statement exactly when the scan reaches a NUL at top level (a NUL under
the cursor returns immediately with no statement, and any no-statement
return leaves the cursor on a NUL); when the buffer does end in a NUL and
the cursor is inside the buffer, `Parser::read` with enough fuel never
panics: it yields a statement-or-EOF result or a parse error; and on an
input that does not end with a NUL byte (here a lone newline)
`Parser::read` panics. -/
theorem C10_parsing_total_only_with_nul :
    (∀ s : Parse.Scanner, s.buf.length ≤ s.ofs →
      s.peek = .panicked "index out of bounds") ∧
    (∀ (p : Parse.Parser) (fuel : Nat),
      p.scanner.buf[p.scanner.ofs]? = some Parse.nul →
      Parse.Parser.read (fuel + 1) p = .ok (none, p)) ∧
    (∀ (fuel : Nat) (p q : Parse.Parser),
      Parse.Parser.read fuel p = .ok (none, q) → q.scanner.peek = .ok Parse.nul) ∧
    (∀ (fuel : Nat) (p : Parse.Parser),
      p.scanner.buf.getLast? = some Parse.nul →
      p.scanner.ofs < p.scanner.buf.length →
      p.scanner.buf.length + 2 ≤ fuel + p.scanner.ofs →
      (∃ res q, Parse.Parser.read fuel p = .ok (res, q)) ∨
      (∃ m o, Parse.Parser.read fuel p = .perr m o)) ∧
    Parse.Parser.read 2 ⟨⟨['\n'], 0⟩, []⟩ = .panicked "index out of bounds" := by
  refine ⟨?_, ?_, parserRead_none_peek_nul, Parse.parser_read_total, ?_⟩
  · intro s h
    unfold Parse.Scanner.peek
    rw [List.getElem?_eq_none h]
  · intro p fuel h
    have hpk : p.scanner.peek = .ok Parse.nul := by
      unfold Parse.Scanner.peek
      rw [h]
    simp only [Parse.Parser.read]
    rw [hpk, Parse.bind_ok]
    rw [if_pos (by simp)]
    rfl
  · rfl

/-- Witness for C10: a cursor one past a one-byte buffer panics, a buffer
holding a single NUL returns no statement, and a NUL-terminated newline
with ample fuel yields a result or a parse error rather than a panic. -/
theorem C10_witness :
    (Parse.Scanner.peek ⟨['a'], 1⟩ = .panicked "index out of bounds" ∧
    Parse.Parser.read 1 ⟨⟨[Parse.nul], 0⟩, []⟩ = .ok (none, ⟨⟨[Parse.nul], 0⟩, []⟩)) ∧
    ((∃ res q, Parse.Parser.read 4 ⟨⟨['\n', Parse.nul], 0⟩, []⟩ = .ok (res, q)) ∨
     (∃ m o, Parse.Parser.read 4 ⟨⟨['\n', Parse.nul], 0⟩, []⟩ = .perr m o)) :=
  ⟨⟨C10_parsing_total_only_with_nul.1 ⟨['a'], 1⟩ (by decide),
    C10_parsing_total_only_with_nul.2.1 ⟨⟨[Parse.nul], 0⟩, []⟩ 0 (by decide)⟩,
   C10_parsing_total_only_with_nul.2.2.2.1 4 ⟨⟨['\n', Parse.nul], 0⟩, []⟩
     (by decide) (by decide) (by decide)⟩


end N2
